import Mathlib

/-!
# bogie: template rendering and output routing

A shallow embedding of `bogie/bogie.go` and `bogie/process.go`.

* Strings stand for Go strings and byte buffers.
* Errors are `String` messages; a Go `(T, error)` result is `Except String T`.
* The template engine (`text/template`, sprig, `initFuncs`), `strconv` quoting, file
  decryption and YAML decoding are external collaborators, gathered in `Deps`.
* The tree that is read (`io.ReadDir`, `io.ReadInput`) is a finite table `FS` keyed by path.
* The output side (`os.MkdirAll`, `os.OpenFile`, writes, standard output) is the state
  `World`; which calls fail is decided by `OS`.
* `processApplication` recurses under a depth budget; the budget `processApplications`
  gives it is never used up on a finite table (`processApplications_isSome`), and `none`
  stands for a walk that would exceed it.
* Messages printed with `log` and on standard error are not part of the model.
-/

namespace bogie

/-! ## Whitespace trimming (`unicode.IsSpace`, `bytes.TrimSpace`) -/

/-- White space as `unicode.IsSpace` defines it. -/
def isSpace (c : Char) : Bool :=
  let n := c.toNat
  (0x09 ≤ n && n ≤ 0x0D) || n == 0x20 || n == 0x85 || n == 0xA0 || n == 0x1680 ||
  (0x2000 ≤ n && n ≤ 0x200A) || n == 0x2028 || n == 0x2029 || n == 0x202F ||
  n == 0x205F || n == 0x3000

/-- Drop the trailing white space of a list of characters. -/
def trimRight (l : List Char) : List Char :=
  (l.reverse.dropWhile isSpace).reverse

/-- `bytes.TrimSpace`: the buffer without its leading and trailing white space. -/
def TrimSpace (s : String) : String :=
  ⟨trimRight (s.data.dropWhile isSpace)⟩

/-! ## Data model -/

/-- A decoded YAML mapping (`map[interface{}]interface{}`); `none` is the nil map. -/
abbrev YamlMap := Option (List (String × String))

/-- The render-time data of `process.go`. -/
structure context where
  Env : YamlMap
  Values : YamlMap
  deriving DecidableEq, Repr

/-- One resolved unit awaiting rendering (`applicationOutput`). -/
structure applicationOutput where
  outPath : String
  template : String
  context : context
  deriving DecidableEq, Repr

/-! ## Paths (`path.Clean`, `path.Dir`, `filepath.Join`) -/

/-- The pieces of a path between its slashes. -/
def splitSlash : List Char → List (List Char)
  | [] => [[]]
  | c :: cs =>
    match splitSlash cs with
    | [] => [[c]]
    | h :: t => if c = '/' then [] :: h :: t else (c :: h) :: t

/-- The pieces of a path put back together with a slash between neighbours. -/
def joinSlash : List (List Char) → List Char
  | [] => []
  | [a] => a
  | a :: b :: rest => a ++ '/' :: joinSlash (b :: rest)

/-- One element of a path applied to the elements kept so far (innermost first):
empty and `.` elements vanish, `..` removes the element before it, except at the root
of a rooted path (dropped) and at the start of a relative one (kept). -/
def cleanStep (rooted : Bool) (stack : List (List Char)) (comp : List Char) :
    List (List Char) :=
  if comp = [] ∨ comp = ['.'] then stack
  else if comp = ['.', '.'] then
    match stack with
    | [] => if rooted then [] else [comp]
    | top :: rest => if top = ['.', '.'] then comp :: stack else rest
  else comp :: stack

/-- Whether a path starts at the root. -/
def isRooted (l : List Char) : Bool :=
  match l with
  | '/' :: _ => true
  | _ => false

/-- The elements of a path that `Clean` keeps, innermost first. -/
def cleanStack (l : List Char) : List (List Char) :=
  (splitSlash l).foldl (cleanStep (isRooted l)) []

/-- `path.Clean` on characters. -/
def cleanChars (l : List Char) : List Char :=
  if isRooted l then '/' :: joinSlash (cleanStack l).reverse
  else if cleanStack l = [] then ['.']
  else joinSlash (cleanStack l).reverse

/-- `path.Clean`: the shortest path equivalent to the argument. -/
def Clean (s : String) : String := ⟨cleanChars s.data⟩

/-- `path.Dir`: everything up to the last slash, cleaned. -/
def Dir (p : String) : String :=
  Clean ⟨(p.data.reverse.dropWhile (fun c => c != '/')).reverse⟩

/-- `filepath.Join`: the elements from the first non-empty one on, joined by slashes and
cleaned; the empty string when every element is empty. -/
def Join (elem : List String) : String :=
  match elem.dropWhile (fun e => e == "") with
  | [] => ""
  | rest => Clean ⟨joinSlash (rest.map String.data)⟩

/-! ## The tree that is read -/

/-- One entry of a directory listing (`os.FileInfo`: `Name()`, `IsDir()`). -/
structure DirEntry where
  Name : String
  IsDir : Bool
  deriving DecidableEq, Repr

/-- The readable part of the file system: directory listings and file bodies, by path. -/
structure FS where
  dirs : List (String × List DirEntry)
  files : List (String × String)
  deriving DecidableEq, Repr

/-- Modelled from the spec: `io.ReadDir` is not among the sources. It reads the entries of
the directory at a path, in enumeration order; a path that is no directory is an error. -/
def ReadDir (fs : FS) (p : String) : Except String (List DirEntry) :=
  match fs.dirs.lookup p with
  | some es => .ok es
  | none => .error ("open " ++ p ++ ": no such file or directory")

/-- Modelled from the spec: `io.ReadInput` is not among the sources. It reads the raw text
of the file at a path; a path that is no file is an error, and no text comes with it. -/
def ReadInput (fs : FS) (p : String) : Except String String :=
  match fs.files.lookup p with
  | some body => .ok body
  | none => .error ("open " ++ p ++ ": no such file or directory")

/-! ## Ignore rules -/

/-- One pattern rule of the ignore engine. -/
structure Rule where
  pattern : String
  negate : Bool
  dirOnly : Bool
  deriving DecidableEq, Repr

/-- Whether a predicate on character lists holds of some suffix of the given list. -/
def anySuffix (f : List Char → Bool) : List Char → Bool
  | [] => f []
  | c :: cs => f (c :: cs) || anySuffix f cs

/-- Modelled from the spec: the pattern matching of the `ignore` package is not among the
sources. Patterns follow glob semantics over one path segment: `*` stands for any run of
characters, `?` for one character, every other character for itself. -/
def globMatch : List Char → List Char → Bool
  | [], s => s.isEmpty
  | p :: ps, s =>
    if p = '*' then anySuffix (fun t => globMatch ps t) s
    else
      match s with
      | [] => false
      | c :: cs => (p = '?' || p = c) && globMatch ps cs

/-- Modelled from the spec: the pattern syntax of the `ignore` package is not among the
sources. A leading `!` negates the rule, a trailing `/` restricts it to directories. -/
def parseRule (line : List Char) : Rule :=
  let neg := line.head? = some '!'
  let body := if neg then line.drop 1 else line
  let dirOnly := body.getLast? = some '/'
  { pattern := ⟨if dirOnly then body.dropLast else body⟩, negate := neg, dirOnly := dirOnly }

/-- The lines of a text. -/
def splitLines : List Char → List (List Char)
  | [] => [[]]
  | c :: cs =>
    match splitLines cs with
    | [] => [[c]]
    | h :: t => if c = '\n' then [] :: h :: t else (c :: h) :: t

/-- Modelled from the spec: the `ignore` package (`Rules`, `Clone`, `ParseFile`, `Ignore`)
is not among the sources. A rule set is an ordered sequence of pattern rules. -/
structure Rules where
  rules : List Rule
  deriving DecidableEq, Repr

/-- Modelled from the spec: `Clone` returns an independent copy of the rule set. -/
def Rules.Clone (r : Rules) : Rules := { rules := r.rules }

/-- Modelled from the spec: the rules an override file holds, one per non-empty line. -/
def parseRules (text : String) : List Rule :=
  ((splitLines text.data).filter (fun l => !l.isEmpty)).map parseRule

/-- Modelled from the spec: `ParseFile` appends the rules of an override file to the set;
a file that does not exist leaves the set unchanged. -/
def Rules.ParseFile (r : Rules) (fs : FS) (p : String) : Rules :=
  match ReadInput fs p with
  | .ok text => { rules := r.rules ++ parseRules text }
  | .error _ => r

/-- Whether a rule applies to an entry. -/
def Rule.applies (ru : Rule) (name : String) (isDir : Bool) : Bool :=
  (!ru.dirOnly || isDir) && globMatch ru.pattern.data name.data

/-- Modelled from the spec: `Ignore` evaluates the entry against the rules in order; the
last rule that applies decides, a negated rule re-including the entry. -/
def Rules.Ignore (r : Rules) (name : String) (isDir : Bool) : Bool :=
  r.rules.foldl (fun acc ru => if ru.applies name isDir then !ru.negate else acc) false

/-! ## Run configuration -/

/-- One configured application. `Values` is the path `setValueContext` receives and
`MuteWarning` the flag `processApplications` reads. -/
structure ApplicationInput where
  Name : String
  Env : String
  Templates : String
  Values : String
  OverrideVars : List String
  MuteWarning : Bool
  deriving DecidableEq, Repr

/-- The run configuration. -/
structure Bogie where
  RDelim : String
  LDelim : String
  EnvFile : String
  OutFile : String
  OutPath : String
  OutFormat : String
  ApplicationInputs : List ApplicationInput
  Rules : Rules
  SkipImageLookup : Bool
  AppRegex : String
  FlaggedSecret : String
  deriving DecidableEq, Repr

/-- The external collaborators of the package. -/
structure Deps where
  /-- `template.New(..).Funcs(..).Option(..).Delims(..).Parse(text)`: the parsed template,
  as the function `Execute` computes on a context. -/
  parse : context → Bogie → String → Except String (context → Except String String)
  /-- The `%q` verb of `fmt`. -/
  quote : String → String
  /-- `io.DecryptFile(path, format)`. -/
  DecryptFile : String → String → Except String String
  /-- `yaml.Unmarshal(text, &m)`: the map `m` after decoding the text into it. -/
  Unmarshal : String → YamlMap → Except String YamlMap

/-- The arguments of `processApplication`; the shared list `appOutputs` is passed and
returned separately. -/
structure Config where
  muteWarning : Bool
  input : String
  output : String
  c : context
  b : Bogie
  deriving DecidableEq, Repr

/-! ## The output side -/

/-- What the run has written: the directories ensured by `os.MkdirAll`, the contents of
the files it opened, and the bytes sent to standard output. -/
structure World where
  dirs : List String
  files : List (String × String)
  stdout : String
  deriving DecidableEq, Repr

/-- Which system calls fail, and with what error. -/
structure OS where
  mkdirAllErr : String → Option String
  openErr : String → Option String
  writeErr : String → Option String
  stdoutErr : Option String

/-- An `io.Writer`: an open file, by name, or standard output. -/
inductive Sink where
  | file (name : String)
  | stdout
  deriving DecidableEq, Repr

/-- The content of a file, if the file exists. -/
def World.readFile (w : World) (name : String) : Option String :=
  w.files.lookup name

/-- The file table with one file set to the given content. -/
def setFile (files : List (String × String)) (name content : String) :
    List (String × String) :=
  (name, content) :: files.filter (fun f => f.1 != name)

/-- `os.MkdirAll(path, 0744)`. -/
def MkdirAll (os : OS) (w : World) (path : String) : Except String World :=
  match os.mkdirAllErr path with
  | some err => .error err
  | none => .ok { w with dirs := if path ∈ w.dirs then w.dirs else path :: w.dirs }

/-- `openOutFile`: open for writing, creating the file or truncating it. -/
def openOutFile (os : OS) (w : World) (filename : String) : Except String World :=
  match os.openErr filename with
  | some err => .error err
  | none => .ok { w with files := setFile w.files filename "" }

/-- Writing bytes to a writer (`io.Copy`, `fmt.Fprint`); buffering is not modelled. -/
def write (os : OS) (w : World) (sink : Sink) (data : String) : Except String World :=
  match sink with
  | .file name =>
    match os.writeErr name with
    | some err => .error err
    | none => .ok { w with files := setFile w.files name ((w.readFile name).getD "" ++ data) }
  | .stdout =>
    match os.stdoutErr with
    | some err => .error err
    | none => .ok { w with stdout := w.stdout ++ data }

/-- `fmt.Fprint(w, s)` with its result dropped. -/
def Fprint (os : OS) (w : World) (sink : Sink) (data : String) : World :=
  match write os w sink data with
  | .ok w1 => w1
  | .error _ => w

/-! ## bogie.go -/

/-- `hasContent`: whether the buffer holds more than white space. -/
def hasContent (b : String) : Bool :=
  let s := TrimSpace b
  s.length > 0

/-- `runTemplate`: parse the text, execute it on the context, and return the rendered buffer
with the result of `hasContent`. -/
def runTemplate (d : Deps) (c : context) (b : Bogie) (text : String) :
    Except String (Bool × String) :=
  match d.parse c b text with
  | .error err => .error ("Line " ++ d.quote text ++ ": " ++ err ++ "\n")
  | .ok tmpl =>
    match tmpl c with
    | .error err => .error err
    | .ok buff => .ok (hasContent buff, buff)

/-- `renderTemplateToDir`: the final state and the error returned, if any. -/
def renderTemplateToDir (d : Deps) (os : OS) (b : Bogie) :
    List applicationOutput → World → World × Option String
  | [], w => (w, none)
  | app :: apps, w =>
    match runTemplate d app.context b app.template with
    | .error err => (w, some ("Error when writing to " ++ app.outPath ++ ": " ++ err ++ "\n"))
    | .ok (hasContent, buff) =>
      if hasContent then
        match MkdirAll os w (Dir app.outPath) with
        | .error err => (w, some err)
        | .ok w1 =>
          match openOutFile os w1 app.outPath with
          | .error err => (w1, some err)
          | .ok w2 =>
            match write os w2 (.file app.outPath) buff with
            | .error err => (w2, some err)
            | .ok w3 => renderTemplateToDir d os b apps w3
      else renderTemplateToDir d os b apps w

/-- The loop of `renderTemplateToFile` over the units, writing to the open file. -/
def renderTemplateToFile.loop (d : Deps) (os : OS) (b : Bogie) (f : String) :
    List applicationOutput → World → World × Option String
  | [], w => (w, none)
  | app :: apps, w =>
    match runTemplate d app.context b app.template with
    | .error err => (w, some err)
    | .ok (hasContent, buff) =>
      if hasContent then
        let w1 := Fprint os w (.file f) "\n---\n"
        match write os w1 (.file f) buff with
        | .error err => (w1, some err)
        | .ok w2 => renderTemplateToFile.loop d os b f apps w2
      else renderTemplateToFile.loop d os b f apps w

/-- `renderTemplateToFile`: the final state and the error returned, if any. -/
def renderTemplateToFile (d : Deps) (os : OS) (b : Bogie) (apps : List applicationOutput)
    (w : World) : World × Option String :=
  match MkdirAll os w b.OutPath with
  | .error err => (w, some err)
  | .ok w1 =>
    match openOutFile os w1 (b.OutPath ++ "/" ++ b.OutFile) with
    | .error err => (w1, some err)
    | .ok w2 => renderTemplateToFile.loop d os b (b.OutPath ++ "/" ++ b.OutFile) apps w2

/-- `renderTemplateToSTDOUT`: the final state and the error returned, if any. -/
def renderTemplateToSTDOUT (d : Deps) (os : OS) (b : Bogie) :
    List applicationOutput → World → World × Option String
  | [], w => (w, none)
  | app :: apps, w =>
    match runTemplate d app.context b app.template with
    | .error err => (w, some err)
    | .ok (hasContent, buff) =>
      if hasContent then
        let w1 := Fprint os w .stdout "\n---\n"
        match write os w1 .stdout buff with
        | .error err => (w1, some err)
        | .ok w2 => renderTemplateToSTDOUT d os b apps w2
      else renderTemplateToSTDOUT d os b apps w

/-! ## process.go -/

/-- `genContext`: the context of the run, with `Env` decoded from the environment file. -/
def genContext (d : Deps) (envfile : String) : Except String context :=
  let c : context := { Env := none, Values := none }
  if envfile ≠ "" then
    match d.DecryptFile envfile "yaml" with
    | .error err => .error err
    | .ok inEnv =>
      match d.Unmarshal inEnv c.Env with
      | .error err => .error err
      | .ok env => .ok { c with Env := env }
  else .ok c

/-- `setValueContext`: a copy of the context, with the values file decoded into `Values`. -/
def setValueContext (d : Deps) (values : String) (c : context) : Except String context :=
  if values ≠ "" then
    match d.DecryptFile values "yaml" with
    | .error err => .error err
    | .ok inValues =>
      match d.Unmarshal inValues c.Values with
      | .error err => .error err
      | .ok vals => .ok { c with Values := vals }
  else .ok c

/-- A `for` loop whose body may return an error, over a state. `none` stands for a walk
that did not finish within its recursion budget. -/
def forEach {α σ : Type} (body : α → σ → Option (Except String σ)) :
    List α → σ → Option (Except String σ)
  | [], s => some (.ok s)
  | a :: as, s =>
    match body a s with
    | some (.ok s1) => forEach body as s1
    | some (.error err) => some (.error err)
    | none => none

/-- `processApplication`: walk `conf.input`, appending one unit per file that is not
ignored to `appOutputs`. The first argument bounds the depth of the recursion. The list
is not returned with an error: `processApplications`, the only caller, drops it then. -/
def processApplication (fs : FS) :
    Nat → Config → List applicationOutput → Option (Except String (List applicationOutput))
  | 0, _, _ => none
  | fuel + 1, conf, appOutputs =>
    let input := conf.input
    let output := conf.output
    match ReadDir fs input with
    | .error err => some (.error err)
    | .ok entries =>
      let helper := match ReadInput fs (input ++ "/_helpers.tmpl") with
        | .ok text => text
        | .error _ => ""
      let r := (conf.b.Rules.Clone).ParseFile fs (input ++ "/.bogieignore")
      forEach (fun entry appOutputs =>
        if r.Ignore entry.Name entry.IsDir then some (.ok appOutputs)
        else
          let nextInPath := input ++ "/" ++ entry.Name
          let nextOutPath := Join [output, entry.Name]
          if entry.IsDir then
            processApplication fs fuel { conf with input := nextInPath, output := nextOutPath }
              appOutputs
          else
            match ReadInput fs nextInPath with
            | .error err => some (.error err)
            | .ok inString =>
              some (.ok (appOutputs ++
                [{ outPath := nextOutPath, template := helper ++ inString, context := conf.c }])))
        entries appOutputs

/-- A depth no directory of the table is nested deeper than: every level of a walk reads
a path longer than the one above it. -/
def depthBound (fs : FS) : Nat :=
  (fs.dirs.map (fun e => e.1.length)).foldr max 0 + 2

/-- `processApplications`: the units of all configured applications. -/
def processApplications (d : Deps) (fs : FS) (b : Bogie) :
    Option (Except String (List applicationOutput)) :=
  match genContext d b.EnvFile with
  | .error err => some (.error err)
  | .ok c =>
    forEach (fun app appOutputs =>
      match setValueContext d app.Values c with
      | .error err => some (.error err)
      | .ok c1 =>
        let releaseDir := Join [b.OutPath, app.Name]
        processApplication fs (depthBound fs)
          { muteWarning := app.MuteWarning, input := app.Templates, output := releaseDir,
            c := c1, b := b }
          appOutputs)
      b.ApplicationInputs []

/-- `Bogie.Run`: the final state and the error returned, if any; `none` only when the
walk did not finish within its budget. -/
def Run (d : Deps) (os : OS) (fs : FS) (b : Bogie) (w : World) :
    Option (World × Option String) :=
  match processApplications d fs b with
  | none => none
  | some (.error err) => some (w, some err)
  | some (.ok apps) =>
    if b.OutFormat = "dir" then some (renderTemplateToDir d os b apps w)
    else if b.OutFormat = "file" then some (renderTemplateToFile d os b apps w)
    else if b.OutFormat = "stdout" then some (renderTemplateToSTDOUT d os b apps w)
    else some (w, some ("Unknown output " ++ b.OutFormat))

/-! ## Notions used to state the properties -/

/-- The rendered content of a unit, when its template parses and executes. -/
def rendered (d : Deps) (b : Bogie) (app : applicationOutput) : Option String :=
  match runTemplate d app.context b app.template with
  | .ok r => some r.2
  | .error _ => none

/-- A buffer is blank when nothing is left of it once white space is trimmed. -/
def blank (buff : String) : Bool :=
  (TrimSpace buff).length == 0

/-- The content a unit contributes to the output: its rendering, unless that is blank. -/
def contribution (d : Deps) (b : Bogie) (app : applicationOutput) : Option String :=
  match rendered d b app with
  | some buff => if blank buff then none else some buff
  | none => none

/-- The document stream of a unit list: for each unit that contributes, in order, the
separator and then the content. -/
def documents (d : Deps) (b : Bogie) (apps : List applicationOutput) : String :=
  (apps.filterMap (contribution d b)).foldr (fun buff rest => "\n---\n" ++ buff ++ rest) ""

/-- The calls that write a unit at its output path all succeed. -/
def DirWritable (os : OS) (outPath : String) : Prop :=
  os.mkdirAllErr (Dir outPath) = none ∧ os.openErr outPath = none ∧
    os.writeErr outPath = none

/-- The state after the content of a unit has been put at its output path. -/
def putUnit (w : World) (outPath buff : String) : World :=
  { w with
    dirs := if Dir outPath ∈ w.dirs then w.dirs else Dir outPath :: w.dirs
    files := setFile w.files outPath buff }

/-- The state after every contributing unit of the list has been put at its path. -/
def putUnits (d : Deps) (b : Bogie) (apps : List applicationOutput) (w : World) : World :=
  apps.foldl (fun w app =>
    match contribution d b app with
    | some buff => putUnit w app.outPath buff
    | none => w) w

/-- The content of the last contributing unit of the list whose output path is `p`. -/
def lastWrite (d : Deps) (b : Bogie) (apps : List applicationOutput) (p : String) :
    Option String :=
  (apps.reverse.filterMap (fun app =>
    if app.outPath = p then contribution d b app else none)).head?

/-! ## Notions used to state the properties of the walk -/

/-- The rule set `processApplication` filters the entries of `input` with. -/
def levelRules (fs : FS) (b : Bogie) (input : String) : Rules :=
  (b.Rules.Clone).ParseFile fs (input ++ "/.bogieignore")

/-- The helper text `processApplication` puts before the files of `input`. -/
def helperOf (fs : FS) (input : String) : String :=
  match ReadInput fs (input ++ "/_helpers.tmpl") with
  | .ok text => text
  | .error _ => ""

/-- The results of a function over a list, concatenated in list order; the first failure
is the failure of the whole. -/
def collect {α β : Type} (f : α → Option (Except String (List β))) :
    List α → Option (Except String (List β))
  | [] => some (.ok [])
  | a :: as =>
    match f a with
    | none => none
    | some (.error err) => some (.error err)
    | some (.ok xs) =>
      match collect f as with
      | none => none
      | some (.error err) => some (.error err)
      | some (.ok ys) => some (.ok (xs ++ ys))

/-- A result with a list put in front of the units it holds. -/
def addTo {β : Type} (acc : List β) :
    Option (Except String (List β)) → Option (Except String (List β))
  | some (.ok xs) => some (.ok (acc ++ xs))
  | some (.error err) => some (.error err)
  | none => none

/-- The depth-first walk of a directory as a list of units: entries in enumeration order, an
ignored entry contributing nothing, a subdirectory the units of its subtree, a file one
unit under the output directory of its level. -/
def walkFrom (fs : FS) (b : Bogie) (c : context) :
    Nat → String → String → Option (Except String (List applicationOutput))
  | 0, _, _ => none
  | fuel + 1, input, output =>
    match ReadDir fs input with
    | .error err => some (.error err)
    | .ok entries =>
      collect (fun entry =>
        if (levelRules fs b input).Ignore entry.Name entry.IsDir then some (.ok [])
        else if entry.IsDir then
          walkFrom fs b c fuel (input ++ "/" ++ entry.Name) (Join [output, entry.Name])
        else
          match ReadInput fs (input ++ "/" ++ entry.Name) with
          | .error err => some (.error err)
          | .ok body =>
            some (.ok [{ outPath := Join [output, entry.Name],
                         template := helperOf fs input ++ body, context := c }]))
        entries

/-- The length of the longest directory path of the table. -/
def maxLen (fs : FS) : Nat :=
  (fs.dirs.map (fun e => e.1.length)).foldr max 0

/-- The units of one configured application: its values decoded into a copy of the
context of the run, then the walk of its template root. -/
def appUnits (d : Deps) (fs : FS) (b : Bogie) (c : context) (app : ApplicationInput) :
    Option (Except String (List applicationOutput)) :=
  match setValueContext d app.Values c with
  | .error err => some (.error err)
  | .ok c1 => walkFrom fs b c1 (depthBound fs) app.Templates (Join [b.OutPath, app.Name])

/-- A stack of path elements as `Clean` keeps it: no element is empty, `.` or holds a
slash, and `..` elements sit only at the bottom of a relative path. -/
def NormStack (rooted : Bool) : List (List Char) → Prop
  | [] => True
  | top :: rest =>
    (top ≠ [] ∧ top ≠ ['.'] ∧ '/' ∉ top) ∧ NormStack rooted rest ∧
      (top = ['.', '.'] → rooted = false ∧ ∀ comp ∈ rest, comp = ['.', '.'])

/-- The relative path of an entry of a directory whose relative path is `rel`. -/
def relJoin (rel name : String) : String :=
  if rel = "" then name else rel ++ "/" ++ name

/-- The depth-first walk of the template root of an application, by relative path: the
entries of the directory `input`, whose path relative to the root is `rel`, in enumeration
order; an ignored entry contributes nothing, a subdirectory the units of its subtree, and
a file at relative path `p` one unit whose output path is `Join [OutPath, name, p]`. -/
def walk (fs : FS) (b : Bogie) (appName : String) (c : context) :
    Nat → String → String → Option (Except String (List applicationOutput))
  | 0, _, _ => none
  | fuel + 1, input, rel =>
    match ReadDir fs input with
    | .error err => some (.error err)
    | .ok entries =>
      collect (fun entry =>
        if (levelRules fs b input).Ignore entry.Name entry.IsDir then some (.ok [])
        else if entry.IsDir then
          walk fs b appName c fuel (input ++ "/" ++ entry.Name) (relJoin rel entry.Name)
        else
          match ReadInput fs (input ++ "/" ++ entry.Name) with
          | .error err => some (.error err)
          | .ok body =>
            some (.ok [{ outPath := Join [b.OutPath, appName, relJoin rel entry.Name],
                         template := helperOf fs input ++ body, context := c }]))
        entries

/-- The rules the override file of a directory holds; none when there is no such file. -/
def ownRules (fs : FS) (dir : String) : List Rule :=
  match ReadInput fs (dir ++ "/.bogieignore") with
  | .ok text => parseRules text
  | .error _ => []

/-- The directory levels a walk started at `root` with output directory `out` goes into,
each with its output directory: the root, and every subdirectory of a reached level that
the rules of that level do not ignore. -/
inductive Reached (fs : FS) (b : Bogie) (root out : String) : String → String → Prop
  | root : Reached fs b root out root out
  | sub {input output : String} {entries : List DirEntry} {entry : DirEntry} :
      Reached fs b root out input output →
      ReadDir fs input = .ok entries → entry ∈ entries → entry.IsDir = true →
      (levelRules fs b input).Ignore entry.Name entry.IsDir = false →
      Reached fs b root out (input ++ "/" ++ entry.Name) (Join [output, entry.Name])

/-- A file entry of a level the walk reaches: the level, its output directory, and the
entry. -/
structure FileAt (fs : FS) (b : Bogie) (root out : String) (dir o : String)
    (entry : DirEntry) : Prop where
  reached : Reached fs b root out dir o
  listed : ∃ entries, ReadDir fs dir = .ok entries ∧ entry ∈ entries
  isFile : entry.IsDir = false

/-- The values of an application as its own source alone gives them: nothing when the
application names no source, else the source decrypted and decoded into the empty map. -/
def valuesOf (d : Deps) (source : String) : Except String YamlMap :=
  if source = "" then .ok none
  else
    match d.DecryptFile source "yaml" with
    | .error err => .error err
    | .ok text => d.Unmarshal text none

/-- `setValueContext` with the memory of its caller made explicit: the context returned, and
the context of the caller after the call. The function receives a copy of the struct and
decodes into the `Values` field of the copy: a nil map is replaced in the copy alone, a map
that is not nil is shared with the caller and receives the decoded entries. -/
def setValueContextMem (d : Deps) (values : String) (c : context) :
    Except String (context × context) :=
  if values ≠ "" then
    match d.DecryptFile values "yaml" with
    | .error err => .error err
    | .ok inValues =>
      match d.Unmarshal inValues c.Values with
      | .error err => .error err
      | .ok vals =>
        .ok ({ c with Values := vals }, if c.Values = none then c else { c with Values := vals })
  else .ok (c, c)

/-- The units of one application within a run whose base context is `c0`: the list
`processApplication` returns for the template root of the application, started on the empty
list, under the context `setValueContext` builds for it from `c0`. That context has the
`Env` of `c0` and the values of the application's own source; every unit of the list carries
it and comes from a file under the template root of the application. -/
def OwnGroup (d : Deps) (fs : FS) (b : Bogie) (c0 : context) (app : ApplicationInput)
    (group : List applicationOutput) : Prop :=
  ∃ c1 vals,
    setValueContext d app.Values c0 = .ok c1 ∧
    valuesOf d app.Values = .ok vals ∧
    c1 = { Env := c0.Env, Values := vals } ∧
    (app.Values = "" → vals = none) ∧
    processApplication fs (depthBound fs)
      { muteWarning := app.MuteWarning, input := app.Templates,
        output := Join [b.OutPath, app.Name], c := c1, b := b } [] = some (.ok group) ∧
    ∀ u ∈ group, u.context = c1 ∧
      ∃ dir o entry, FileAt fs b app.Templates (Join [b.OutPath, app.Name]) dir o entry ∧
        u.outPath = Join [o, entry.Name]

/-- `processApplications` with the memory of the loop made explicit: the base context `c`
is carried from one application to the next as `setValueContext` leaves it, and returned
with the units. -/
def processApplicationsMem (d : Deps) (fs : FS) (b : Bogie) :
    Option (Except String (context × List applicationOutput)) :=
  match genContext d b.EnvFile with
  | .error err => some (.error err)
  | .ok c =>
    forEach (fun app (st : context × List applicationOutput) =>
      match setValueContextMem d app.Values st.1 with
      | .error err => some (.error err)
      | .ok (c1, base) =>
        match processApplication fs (depthBound fs)
            { muteWarning := app.MuteWarning, input := app.Templates,
              output := Join [b.OutPath, app.Name], c := c1, b := b } st.2 with
        | some (.ok appOutputs) => some (.ok (base, appOutputs))
        | some (.error err) => some (.error err)
        | none => none)
      b.ApplicationInputs (c, [])

/-! ## Example data -/

/-- A small template engine: the text `((` does not parse, the text `((.x))` fails when
executed, every other text renders as itself. -/
def exampleDeps : Deps where
  parse := fun _ _ text =>
    if text = "((" then .error "unclosed action"
    else .ok (fun _ => if text = "((.x))" then .error "map has no entry for key x" else .ok text)
  quote := fun s => "\"" ++ s ++ "\""
  DecryptFile := fun path _ =>
    if path = "web.yaml" then .ok "replicas"
    else if path = "db.yaml" then .ok "shards"
    else if path = "env.yaml" then .ok "region"
    else .error ("open " ++ path ++ ": no such file or directory")
  Unmarshal := fun text m => if text = "" then .ok m else .ok (some ((text, "3") :: m.getD []))

/-- A system in which every call succeeds. -/
def exampleOS : OS where
  mkdirAllErr := fun _ => none
  openErr := fun _ => none
  writeErr := fun _ => none
  stdoutErr := none

/-- A template tree: a helper file and an ignore file at the root, and a subdirectory. -/
def exampleFS : FS where
  dirs := [
    ("t", [⟨".bogieignore", false⟩, ⟨"_helpers.tmpl", false⟩, ⟨"a.yaml", false⟩,
           ⟨"b.txt", false⟩, ⟨"sub", true⟩]),
    ("t/sub", [⟨"c.txt", false⟩, ⟨"d.yaml", false⟩]),
    ("u", [⟨"e.yaml", false⟩])]
  files := [
    ("t/.bogieignore", "*.txt\n.bogieignore\n_helpers.tmpl"),
    ("t/_helpers.tmpl", "H;"),
    ("t/a.yaml", "A"),
    ("t/b.txt", "B"),
    ("t/sub/c.txt", "C"),
    ("t/sub/d.yaml", " \n"),
    ("u/e.yaml", "E")]

/-- A configuration with two applications. -/
def exampleBogie : Bogie where
  RDelim := "))"
  LDelim := "(("
  EnvFile := "env.yaml"
  OutFile := "all.yaml"
  OutPath := "out"
  OutFormat := "dir"
  ApplicationInputs := [
    ⟨"web", "", "t", "web.yaml", [], false⟩,
    ⟨"db", "", "u", "db.yaml", [], false⟩]
  Rules := ⟨[]⟩
  SkipImageLookup := false
  AppRegex := ""
  FlaggedSecret := ""

/-- The example configuration with a second application whose template root is missing. -/
def missingRootBogie : Bogie :=
  { exampleBogie with
    ApplicationInputs := [
      ⟨"web", "", "t", "web.yaml", [], false⟩,
      ⟨"db", "", "missing", "db.yaml", [], false⟩] }

/-- The units of the example configuration on the example tree. -/
def exampleUnits : List applicationOutput :=
  [ { outPath := "out/web/a.yaml", template := "H;A",
      context := { Env := some [("region", "3")], Values := some [("replicas", "3")] } },
    { outPath := "out/web/sub/c.txt", template := "C",
      context := { Env := some [("region", "3")], Values := some [("replicas", "3")] } },
    { outPath := "out/web/sub/d.yaml", template := " \n",
      context := { Env := some [("region", "3")], Values := some [("replicas", "3")] } },
    { outPath := "out/db/e.yaml", template := "E",
      context := { Env := some [("region", "3")], Values := some [("shards", "3")] } } ]

/-- The empty context. -/
def emptyContext : context := { Env := none, Values := none }

/-- A state in which nothing has been written. -/
def emptyWorld : World := { dirs := [], files := [], stdout := "" }

/-- A unit whose template is the given text. -/
def mkUnit (outPath text : String) : applicationOutput :=
  { outPath := outPath, template := text, context := emptyContext }

/-! ## White space -/

theorem trimRight_eq_nil (l : List Char) : trimRight l = [] ↔ ∀ c ∈ l, isSpace c = true := by
  simp [trimRight, List.dropWhile_eq_nil_iff]

theorem all_space_of_dropWhile (l : List Char)
    (h : ∀ c ∈ l.dropWhile isSpace, isSpace c = true) : ∀ c ∈ l, isSpace c = true := by
  induction l with
  | nil => simp
  | cons a t ih =>
    by_cases ha : isSpace a = true
    · simp only [List.dropWhile_cons, ha, ite_true] at h
      intro c hc
      rcases List.mem_cons.1 hc with rfl | hc
      · exact ha
      · exact ih h c hc
    · simp only [List.dropWhile_cons, ha] at h
      exact absurd (h a (by simp)) ha

theorem trimSpace_length_eq_zero (b : String) :
    (TrimSpace b).length = 0 ↔ ∀ c ∈ b.data, isSpace c = true := by
  unfold TrimSpace
  simp only [String.length, List.length_eq_zero, trimRight_eq_nil]
  constructor
  · exact all_space_of_dropWhile _
  · intro h c hc
    exact h c ((List.dropWhile_suffix isSpace).subset hc)

theorem hasContent_eq_not_blank (b : String) : hasContent b = !blank b := by
  unfold hasContent blank
  by_cases h : (TrimSpace b).length = 0
  · simp [h]
  · have : 0 < (TrimSpace b).length := Nat.pos_of_ne_zero h
    simp [h, this]

/-! ## Rendering one unit -/

theorem runTemplate_ok_flag {d : Deps} {c : context} {b : Bogie} {text : String}
    {flag : Bool} {buff : String} (h : runTemplate d c b text = .ok (flag, buff)) :
    flag = hasContent buff := by
  unfold runTemplate at h
  split at h
  · cases h
  · split at h
    · cases h
    · cases h; rfl

theorem contribution_of_run {d : Deps} {b : Bogie} {app : applicationOutput}
    {flag : Bool} {buff : String}
    (h : runTemplate d app.context b app.template = .ok (flag, buff)) :
    contribution d b app = if flag then some buff else none := by
  have hf := runTemplate_ok_flag h
  simp only [contribution, rendered, h, hf, hasContent_eq_not_blank]
  cases blank buff <;> simp

theorem contribution_of_error {d : Deps} {b : Bogie} {app : applicationOutput} {err : String}
    (h : runTemplate d app.context b app.template = .error err) :
    contribution d b app = none := by
  simp [contribution, rendered, h]

/-! ## The file table -/

theorem lookup_setFile_self (files : List (String × String)) (name content : String) :
    (setFile files name content).lookup name = some content := by
  simp [setFile, List.lookup_cons]

theorem lookup_setFile_other (files : List (String × String)) {name p : String}
    (content : String) (h : p ≠ name) :
    (setFile files name content).lookup p = files.lookup p := by
  have hb : (p == name) = false := by simpa using h
  simp only [setFile, List.lookup_cons, hb]
  induction files with
  | nil => rfl
  | cons f t ih =>
    obtain ⟨k, v⟩ := f
    by_cases hk : k = name
    · subst hk
      have : (p == k) = false := hb
      simp [List.filter_cons, List.lookup_cons, this, ih]
    · have hk2 : (k != name) = true := by simpa using hk
      simp only [List.filter_cons, hk2, ite_true, List.lookup_cons, ih]

theorem setFile_setFile (files : List (String × String)) (name a c : String) :
    setFile (setFile files name a) name c = setFile files name c := by
  simp [setFile, List.filter_cons, List.filter_filter]


/-! ## Directory mode -/

theorem renderTemplateToDir_cons_error {d : Deps} {os : OS} {b : Bogie}
    {app : applicationOutput} {err : String} (apps : List applicationOutput) (w : World)
    (h : runTemplate d app.context b app.template = .error err) :
    renderTemplateToDir d os b (app :: apps) w =
      (w, some ("Error when writing to " ++ app.outPath ++ ": " ++ err ++ "\n")) := by
  simp only [renderTemplateToDir, h]

theorem renderTemplateToDir_cons_skip {d : Deps} {os : OS} {b : Bogie}
    {app : applicationOutput} {buff : String} (apps : List applicationOutput) (w : World)
    (h : runTemplate d app.context b app.template = .ok (false, buff)) :
    renderTemplateToDir d os b (app :: apps) w = renderTemplateToDir d os b apps w := by
  simp [renderTemplateToDir, h]

theorem renderTemplateToDir_cons_put {d : Deps} {os : OS} {b : Bogie}
    {app : applicationOutput} {buff : String} (apps : List applicationOutput) (w : World)
    (h : runTemplate d app.context b app.template = .ok (true, buff))
    (hio : DirWritable os app.outPath) :
    renderTemplateToDir d os b (app :: apps) w =
      renderTemplateToDir d os b apps (putUnit w app.outPath buff) := by
  obtain ⟨h1, h2, h3⟩ := hio
  simp only [renderTemplateToDir, h, ite_true, MkdirAll, h1, openOutFile, h2, write, h3,
    World.readFile, lookup_setFile_self, Option.getD_some, String.empty_append,
    setFile_setFile, putUnit]

theorem renderTemplateToDir_append (d : Deps) (os : OS) (b : Bogie)
    (pre post : List applicationOutput) (w : World) :
    renderTemplateToDir d os b (pre ++ post) w =
      if (renderTemplateToDir d os b pre w).2 = none then
        renderTemplateToDir d os b post (renderTemplateToDir d os b pre w).1
      else renderTemplateToDir d os b pre w := by
  induction pre generalizing w with
  | nil => simp [renderTemplateToDir]
  | cons app pre ih =>
    simp only [List.cons_append, renderTemplateToDir]
    split
    · simp
    · split
      · split
        · simp
        · split
          · simp
          · split
            · simp
            · exact ih _
      · exact ih _

theorem putUnits_cons (d : Deps) (b : Bogie) (app : applicationOutput)
    (apps : List applicationOutput) (w : World) :
    putUnits d b (app :: apps) w =
      putUnits d b apps (match contribution d b app with
        | some buff => putUnit w app.outPath buff
        | none => w) := by
  simp [putUnits]

theorem renderTemplateToDir_ok {d : Deps} {os : OS} {b : Bogie}
    (apps : List applicationOutput) (w : World)
    (hr : ∀ u ∈ apps, ∃ r, runTemplate d u.context b u.template = .ok r)
    (hio : ∀ u ∈ apps, contribution d b u ≠ none → DirWritable os u.outPath) :
    renderTemplateToDir d os b apps w = (putUnits d b apps w, none) := by
  induction apps generalizing w with
  | nil => simp [renderTemplateToDir, putUnits]
  | cons app apps ih =>
    obtain ⟨⟨flag, buff⟩, hrun⟩ := hr app (by simp)
    have hr2 : ∀ u ∈ apps, ∃ r, runTemplate d u.context b u.template = .ok r :=
      fun u hu => hr u (by simp [hu])
    have hio2 : ∀ u ∈ apps, contribution d b u ≠ none → DirWritable os u.outPath :=
      fun u hu => hio u (by simp [hu])
    have hc := contribution_of_run hrun
    cases flag with
    | false =>
      rw [renderTemplateToDir_cons_skip apps w hrun, putUnits_cons, ih _ hr2 hio2]
      simp [hc]
    | true =>
      have hw : DirWritable os app.outPath := hio app (by simp) (by simp [hc])
      rw [renderTemplateToDir_cons_put apps w hrun hw, putUnits_cons, ih _ hr2 hio2]
      simp [hc]

theorem putUnit_readFile (w : World) (outPath buff p : String) :
    (putUnit w outPath buff).readFile p = if p = outPath then some buff else w.readFile p := by
  by_cases h : p = outPath
  · subst h; simp [putUnit, World.readFile, lookup_setFile_self]
  · simp [putUnit, World.readFile, lookup_setFile_other _ _ h, h]

theorem lastWrite_append_single (d : Deps) (b : Bogie) (apps : List applicationOutput)
    (app : applicationOutput) (p : String) :
    lastWrite d b (apps ++ [app]) p =
      ((if app.outPath = p then contribution d b app else none).orElse
        (fun _ => lastWrite d b apps p)) := by
  unfold lastWrite
  simp only [List.reverse_append, List.reverse_cons, List.reverse_nil, List.nil_append,
    List.singleton_append, List.filterMap_cons]
  cases h : (if app.outPath = p then contribution d b app else none) <;> simp

theorem putUnits_append_single (d : Deps) (b : Bogie) (apps : List applicationOutput)
    (app : applicationOutput) (w : World) :
    putUnits d b (apps ++ [app]) w =
      (match contribution d b app with
        | some buff => putUnit (putUnits d b apps w) app.outPath buff
        | none => putUnits d b apps w) := by
  simp [putUnits, List.foldl_append]

theorem putUnits_readFile (d : Deps) (b : Bogie) (apps : List applicationOutput) (w : World)
    (p : String) :
    (putUnits d b apps w).readFile p = (lastWrite d b apps p).orElse (fun _ => w.readFile p) := by
  induction apps using List.reverseRecOn with
  | nil => simp [putUnits, lastWrite]
  | append_singleton apps app ih =>
    rw [putUnits_append_single, lastWrite_append_single]
    cases hc : contribution d b app with
    | none => simp [ih]
    | some buff =>
      simp only [putUnit_readFile, ih]
      by_cases hp : app.outPath = p
      · simp [hp]
      · have hp2 : ¬ p = app.outPath := fun h => hp h.symm
        simp [hp, hp2]

theorem putUnits_stdout (d : Deps) (b : Bogie) (apps : List applicationOutput) (w : World) :
    (putUnits d b apps w).stdout = w.stdout := by
  induction apps generalizing w with
  | nil => rfl
  | cons app apps ih =>
    rw [putUnits_cons, ih]
    cases contribution d b app <;> simp [putUnit]


/-! ## Single-file and stream modes -/

theorem documents_cons (d : Deps) (b : Bogie) (app : applicationOutput)
    (apps : List applicationOutput) :
    documents d b (app :: apps) =
      (match contribution d b app with
        | some buff => "\n---\n" ++ buff ++ documents d b apps
        | none => documents d b apps) := by
  unfold documents
  cases h : contribution d b app <;> simp [List.filterMap_cons, h]

theorem write_file_ok {os : OS} {f : String} (hw : os.writeErr f = none)
    (ds : List String) (fl : List (String × String)) (c so data : String) :
    write os ⟨ds, setFile fl f c, so⟩ (.file f) data = .ok ⟨ds, setFile fl f (c ++ data), so⟩ := by
  simp [write, hw, World.readFile, lookup_setFile_self, setFile_setFile]

theorem fileLoop_ok {d : Deps} {os : OS} {b : Bogie} {f : String}
    (hw : os.writeErr f = none) (apps : List applicationOutput)
    (hr : ∀ u ∈ apps, ∃ r, runTemplate d u.context b u.template = .ok r)
    (ds : List String) (fl : List (String × String)) (c so : String) :
    renderTemplateToFile.loop d os b f apps ⟨ds, setFile fl f c, so⟩ =
      (⟨ds, setFile fl f (c ++ documents d b apps), so⟩, none) := by
  induction apps generalizing c with
  | nil => simp [renderTemplateToFile.loop, documents]
  | cons app apps ih =>
    obtain ⟨⟨flag, buff⟩, hrun⟩ := hr app (by simp)
    have hr2 : ∀ u ∈ apps, ∃ r, runTemplate d u.context b u.template = .ok r :=
      fun u hu => hr u (by simp [hu])
    have hc := contribution_of_run hrun
    cases flag with
    | false =>
      simp only [renderTemplateToFile.loop, hrun, Bool.false_eq_true, ite_false, ih hr2,
        documents_cons, hc]
    | true =>
      simp only [renderTemplateToFile.loop, hrun, ite_true, Fprint, write_file_ok hw, ih hr2,
        documents_cons, hc, String.append_assoc]

theorem renderTemplateToSTDOUT_ok {d : Deps} {os : OS} {b : Bogie}
    (hw : os.stdoutErr = none) (apps : List applicationOutput)
    (hr : ∀ u ∈ apps, ∃ r, runTemplate d u.context b u.template = .ok r)
    (w : World) :
    renderTemplateToSTDOUT d os b apps w =
      ({ w with stdout := w.stdout ++ documents d b apps }, none) := by
  induction apps generalizing w with
  | nil => simp [renderTemplateToSTDOUT, documents]
  | cons app apps ih =>
    obtain ⟨⟨flag, buff⟩, hrun⟩ := hr app (by simp)
    have hr2 : ∀ u ∈ apps, ∃ r, runTemplate d u.context b u.template = .ok r :=
      fun u hu => hr u (by simp [hu])
    have hc := contribution_of_run hrun
    cases flag with
    | false =>
      simp only [renderTemplateToSTDOUT, hrun, Bool.false_eq_true, ite_false, ih hr2,
        documents_cons, hc]
    | true =>
      simp only [renderTemplateToSTDOUT, hrun, ite_true, Fprint, write, hw, ih hr2,
        documents_cons, hc, String.append_assoc]

theorem renderTemplateToFile_ok {d : Deps} {os : OS} {b : Bogie}
    (hm : os.mkdirAllErr b.OutPath = none)
    (ho : os.openErr (b.OutPath ++ "/" ++ b.OutFile) = none)
    (hw : os.writeErr (b.OutPath ++ "/" ++ b.OutFile) = none)
    (apps : List applicationOutput)
    (hr : ∀ u ∈ apps, ∃ r, runTemplate d u.context b u.template = .ok r)
    (w : World) :
    renderTemplateToFile d os b apps w =
      ({ dirs := if b.OutPath ∈ w.dirs then w.dirs else b.OutPath :: w.dirs
         files := setFile w.files (b.OutPath ++ "/" ++ b.OutFile) (documents d b apps)
         stdout := w.stdout }, none) := by
  simp only [renderTemplateToFile, MkdirAll, hm, openOutFile, ho, fileLoop_ok hw apps hr,
    String.empty_append]

theorem fileLoop_append (d : Deps) (os : OS) (b : Bogie) (f : String)
    (pre post : List applicationOutput) (w : World) :
    renderTemplateToFile.loop d os b f (pre ++ post) w =
      if (renderTemplateToFile.loop d os b f pre w).2 = none then
        renderTemplateToFile.loop d os b f post (renderTemplateToFile.loop d os b f pre w).1
      else renderTemplateToFile.loop d os b f pre w := by
  induction pre generalizing w with
  | nil => simp [renderTemplateToFile.loop]
  | cons app pre ih =>
    simp only [List.cons_append, renderTemplateToFile.loop]
    split
    · simp
    · split
      · split
        · simp
        · exact ih _
      · exact ih _

theorem renderTemplateToSTDOUT_append (d : Deps) (os : OS) (b : Bogie)
    (pre post : List applicationOutput) (w : World) :
    renderTemplateToSTDOUT d os b (pre ++ post) w =
      if (renderTemplateToSTDOUT d os b pre w).2 = none then
        renderTemplateToSTDOUT d os b post (renderTemplateToSTDOUT d os b pre w).1
      else renderTemplateToSTDOUT d os b pre w := by
  induction pre generalizing w with
  | nil => simp [renderTemplateToSTDOUT]
  | cons app pre ih =>
    simp only [List.cons_append, renderTemplateToSTDOUT]
    split
    · simp
    · split
      · split
        · simp
        · exact ih _
      · exact ih _

theorem renderTemplateToDir_skip {d : Deps} {os : OS} {b : Bogie}
    {app : applicationOutput} {buff : String} (pre post : List applicationOutput) (w : World)
    (h : runTemplate d app.context b app.template = .ok (false, buff)) :
    renderTemplateToDir d os b (pre ++ app :: post) w =
      renderTemplateToDir d os b (pre ++ post) w := by
  rw [renderTemplateToDir_append, renderTemplateToDir_append d os b pre post,
    renderTemplateToDir_cons_skip post _ h]

theorem fileLoop_skip {d : Deps} {os : OS} {b : Bogie} {f : String}
    {app : applicationOutput} {buff : String} (pre post : List applicationOutput) (w : World)
    (h : runTemplate d app.context b app.template = .ok (false, buff)) :
    renderTemplateToFile.loop d os b f (pre ++ app :: post) w =
      renderTemplateToFile.loop d os b f (pre ++ post) w := by
  rw [fileLoop_append, fileLoop_append d os b f pre post]
  simp [renderTemplateToFile.loop, h]

theorem renderTemplateToFile_skip {d : Deps} {os : OS} {b : Bogie}
    {app : applicationOutput} {buff : String} (pre post : List applicationOutput) (w : World)
    (h : runTemplate d app.context b app.template = .ok (false, buff)) :
    renderTemplateToFile d os b (pre ++ app :: post) w =
      renderTemplateToFile d os b (pre ++ post) w := by
  simp only [renderTemplateToFile, fileLoop_skip pre post _ h]

theorem renderTemplateToSTDOUT_skip {d : Deps} {os : OS} {b : Bogie}
    {app : applicationOutput} {buff : String} (pre post : List applicationOutput) (w : World)
    (h : runTemplate d app.context b app.template = .ok (false, buff)) :
    renderTemplateToSTDOUT d os b (pre ++ app :: post) w =
      renderTemplateToSTDOUT d os b (pre ++ post) w := by
  rw [renderTemplateToSTDOUT_append, renderTemplateToSTDOUT_append d os b pre post]
  simp [renderTemplateToSTDOUT, h]

theorem run_blank {d : Deps} {c : context} {b : Bogie} {text : String} {flag : Bool}
    {buff : String} (h : runTemplate d c b text = .ok (flag, buff))
    (hb : (TrimSpace buff).length = 0) :
    runTemplate d c b text = .ok (false, buff) := by
  have hf := runTemplate_ok_flag h
  rw [hasContent_eq_not_blank] at hf
  have : blank buff = true := by simp [blank, hb]
  rw [this] at hf
  rw [h, hf]; rfl

theorem run_not_blank {d : Deps} {c : context} {b : Bogie} {text : String} {flag : Bool}
    {buff : String} (h : runTemplate d c b text = .ok (flag, buff))
    (hb : (TrimSpace buff).length ≠ 0) :
    runTemplate d c b text = .ok (true, buff) := by
  have hf := runTemplate_ok_flag h
  rw [hasContent_eq_not_blank] at hf
  have : blank buff = false := by simp [blank, hb]
  rw [this] at hf
  rw [h, hf]; rfl


/-! ## Properties of rendering and output routing -/

/-- C10 (as the code has it): the boolean `runTemplate` returns first is `hasContent`: it is
true exactly when the rendered buffer, trimmed of leading and trailing white space, has
non-zero length, that is, when some character of the buffer is not white space; it is
false exactly when the trimmed length is zero. -/
theorem runTemplate_flag_iff_content (d : Deps) (c : context) (b : Bogie) (text : String)
    (flag : Bool) (buff : String) (h : runTemplate d c b text = .ok (flag, buff)) :
    (flag = true ↔ (TrimSpace buff).length ≠ 0) ∧
    (flag = false ↔ (TrimSpace buff).length = 0) ∧
    (flag = true ↔ ∃ ch ∈ buff.data, isSpace ch = false) := by
  have hf := runTemplate_ok_flag h
  rw [hasContent_eq_not_blank] at hf
  have h2 : flag = false ↔ (TrimSpace buff).length = 0 := by
    subst hf; simp [blank]
  have h1 : flag = true ↔ (TrimSpace buff).length ≠ 0 := by
    subst hf; simp [blank]
  refine ⟨h1, h2, ?_⟩
  rw [h1, Ne, trimSpace_length_eq_zero]
  simp

/-- C10, witness: the example engine renders ` x ` as itself, and the flag is true. -/
theorem runTemplate_flag_iff_content_witness :
    runTemplate exampleDeps emptyContext exampleBogie " x " = .ok (true, " x ") ∧
    (true = true ↔ (TrimSpace " x ").length ≠ 0) :=
  ⟨rfl,
   (runTemplate_flag_iff_content exampleDeps emptyContext exampleBogie " x " true " x "
      rfl).1⟩

/-- C10, counterexample: the template `x` renders without error, the first result of
`runTemplate` is true, and the trimmed rendering has length one, not zero. -/
theorem runTemplate_flag_not_isEmpty :
    runTemplate exampleDeps emptyContext exampleBogie "x" = .ok (true, "x") ∧
    (TrimSpace "x").length = 1 ∧
    ¬ (true = true ↔ (TrimSpace "x").length = 0) :=
  ⟨rfl, by decide, by decide⟩

/-- C1: when every template of the unit list renders without error and the calls on the
output succeed, `renderTemplateToFile` leaves in the output file, and
`renderTemplateToSTDOUT` appends to standard output, exactly `documents`: for each unit
whose trimmed rendering is not empty, in list order, the separator and then the rendered
content. Both modes return no error, and two contributing units give two documents, each
after a separator line. -/
theorem single_stream_is_documents (d : Deps) (os : OS) (b : Bogie)
    (apps : List applicationOutput) (w : World)
    (hr : ∀ u ∈ apps, ∃ r, runTemplate d u.context b u.template = .ok r) :
    (os.mkdirAllErr b.OutPath = none → os.openErr (b.OutPath ++ "/" ++ b.OutFile) = none →
      os.writeErr (b.OutPath ++ "/" ++ b.OutFile) = none →
        (renderTemplateToFile d os b apps w).2 = none ∧
        (renderTemplateToFile d os b apps w).1.readFile (b.OutPath ++ "/" ++ b.OutFile) =
          some (documents d b apps) ∧
        (renderTemplateToFile d os b apps w).1.stdout = w.stdout) ∧
    (os.stdoutErr = none →
        renderTemplateToSTDOUT d os b apps w =
          ({ w with stdout := w.stdout ++ documents d b apps }, none)) ∧
    documents d b apps =
      (apps.filterMap (fun u =>
        match runTemplate d u.context b u.template with
        | .ok (_, buff) => if (TrimSpace buff).length = 0 then none else some buff
        | .error _ => none)).foldr (fun buff rest => "\n---\n" ++ buff ++ rest) "" ∧
    (∀ u1 u2 f1 f2 r1 r2, apps = [u1, u2] →
      runTemplate d u1.context b u1.template = .ok (f1, r1) → (TrimSpace r1).length ≠ 0 →
      runTemplate d u2.context b u2.template = .ok (f2, r2) → (TrimSpace r2).length ≠ 0 →
      documents d b apps = "\n---\n" ++ r1 ++ "\n---\n" ++ r2) := by
  refine ⟨?_, ?_, ?_, ?_⟩
  · intro hm ho hw
    rw [renderTemplateToFile_ok hm ho hw apps hr w]
    simp [World.readFile, lookup_setFile_self]
  · intro hw
    exact renderTemplateToSTDOUT_ok hw apps hr w
  · unfold documents
    congr 1
    apply List.filterMap_congr
    intro u _
    unfold contribution rendered blank
    cases hrun : runTemplate d u.context b u.template with
    | error e => rfl
    | ok r =>
      obtain ⟨f, buff⟩ := r
      by_cases hb : (TrimSpace buff).length = 0 <;> simp [hb]
  · intro u1 u2 f1 f2 r1 r2 happs h1 hb1 h2 hb2
    subst happs
    have c1 := contribution_of_run (run_not_blank h1 hb1)
    have c2 := contribution_of_run (run_not_blank h2 hb2)
    simp only [ite_true] at c1 c2
    simp [documents_cons, c1, c2, documents, String.append_assoc]

/-- C1, witness: three units, the second blank, in both modes. -/
theorem single_stream_is_documents_witness :
    (renderTemplateToFile exampleDeps exampleOS exampleBogie
        [mkUnit "o/a" "A", mkUnit "o/b" " \n", mkUnit "o/c" "C"] emptyWorld).1.readFile
        "out/all.yaml" = some "\n---\nA\n---\nC" ∧
    renderTemplateToSTDOUT exampleDeps exampleOS exampleBogie
        [mkUnit "o/a" "A", mkUnit "o/b" " \n", mkUnit "o/c" "C"] emptyWorld =
      ({ emptyWorld with stdout := "\n---\nA\n---\nC" }, none) := by
  have h := single_stream_is_documents exampleDeps exampleOS exampleBogie
    [mkUnit "o/a" "A", mkUnit "o/b" " \n", mkUnit "o/c" "C"] emptyWorld
    (by
      intro u hu
      simp only [List.mem_cons, List.mem_singleton, List.not_mem_nil, or_false] at hu
      rcases hu with rfl | rfl | rfl
      · exact ⟨(true, "A"), rfl⟩
      · exact ⟨(false, " \n"), rfl⟩
      · exact ⟨(true, "C"), rfl⟩)
  exact ⟨(h.1 rfl rfl rfl).2.1.trans (by decide), (h.2.1 rfl).trans (by decide)⟩


theorem documents_append (d : Deps) (b : Bogie) (pre post : List applicationOutput) :
    documents d b (pre ++ post) = documents d b pre ++ documents d b post := by
  induction pre with
  | nil => simp [documents]
  | cons app pre ih =>
    simp only [List.cons_append, documents_cons, ih]
    cases contribution d b app <;> simp [String.append_assoc]

theorem renderTemplateToDir_prefix_ok {d : Deps} {os : OS} {b : Bogie}
    (pre post : List applicationOutput) (w : World)
    (hr : ∀ u ∈ pre, ∃ r, runTemplate d u.context b u.template = .ok r)
    (hio : ∀ u ∈ pre, contribution d b u ≠ none → DirWritable os u.outPath) :
    renderTemplateToDir d os b (pre ++ post) w =
      renderTemplateToDir d os b post (putUnits d b pre w) := by
  rw [renderTemplateToDir_append, renderTemplateToDir_ok pre w hr hio]
  simp

/-- C2: a unit whose rendering is blank (zero length once trimmed, that is, white space
only) changes nothing: in every mode the run with the unit equals the run without it, and
on its own the unit leaves every file, directory and the output stream as they were. A unit
whose trimmed rendering is not empty is written: in directory mode, once the units before
it are done, its output path holds exactly its rendered content and no other file
changes; in the single-stream modes it adds the separator and its content. -/
theorem blank_skipped_content_written (d : Deps) (os : OS) (b : Bogie)
    (pre post : List applicationOutput) (app : applicationOutput) (flag : Bool)
    (buff : String) (w : World)
    (hrun : runTemplate d app.context b app.template = .ok (flag, buff)) :
    ((∀ ch ∈ buff.data, isSpace ch = true) ↔ (TrimSpace buff).length = 0) ∧
    ((TrimSpace buff).length = 0 →
      renderTemplateToDir d os b [app] w = (w, none) ∧
      renderTemplateToDir d os b (pre ++ app :: post) w =
        renderTemplateToDir d os b (pre ++ post) w ∧
      renderTemplateToFile d os b (pre ++ app :: post) w =
        renderTemplateToFile d os b (pre ++ post) w ∧
      renderTemplateToSTDOUT d os b (pre ++ app :: post) w =
        renderTemplateToSTDOUT d os b (pre ++ post) w ∧
      documents d b (pre ++ app :: post) = documents d b (pre ++ post)) ∧
    ((TrimSpace buff).length ≠ 0 →
      ((∀ u ∈ pre, ∃ r, runTemplate d u.context b u.template = .ok r) →
       (∀ u ∈ pre, contribution d b u ≠ none → DirWritable os u.outPath) →
       DirWritable os app.outPath →
        renderTemplateToDir d os b (pre ++ app :: post) w =
          renderTemplateToDir d os b post (putUnit (putUnits d b pre w) app.outPath buff) ∧
        (putUnit (putUnits d b pre w) app.outPath buff).readFile app.outPath = some buff ∧
        ∀ p, p ≠ app.outPath →
          (putUnit (putUnits d b pre w) app.outPath buff).readFile p =
            (putUnits d b pre w).readFile p) ∧
      documents d b (pre ++ app :: post) =
        documents d b pre ++ ("\n---\n" ++ buff ++ documents d b post) ∧
      ((∀ u ∈ pre ++ app :: post, ∃ r, runTemplate d u.context b u.template = .ok r) →
        (os.stdoutErr = none →
          renderTemplateToSTDOUT d os b (pre ++ app :: post) w =
            ({ w with stdout := w.stdout ++
                (documents d b pre ++ ("\n---\n" ++ buff ++ documents d b post)) }, none)) ∧
        (os.mkdirAllErr b.OutPath = none →
          os.openErr (b.OutPath ++ "/" ++ b.OutFile) = none →
          os.writeErr (b.OutPath ++ "/" ++ b.OutFile) = none →
          (renderTemplateToFile d os b (pre ++ app :: post) w).1.readFile
              (b.OutPath ++ "/" ++ b.OutFile) =
            some (documents d b pre ++ ("\n---\n" ++ buff ++ documents d b post))))) := by
  refine ⟨(trimSpace_length_eq_zero buff).symm, ?_, ?_⟩
  · intro hb
    have h0 := run_blank hrun hb
    have hc : contribution d b app = none := by simp [contribution_of_run h0]
    refine ⟨?_, renderTemplateToDir_skip pre post w h0, renderTemplateToFile_skip pre post w h0,
      renderTemplateToSTDOUT_skip pre post w h0, ?_⟩
    · rw [renderTemplateToDir_cons_skip [] w h0]; rfl
    · rw [documents_append, documents_cons, hc, ← documents_append]
  · intro hb
    have h1 := run_not_blank hrun hb
    have hc : contribution d b app = some buff := by simp [contribution_of_run h1]
    have hdoc : documents d b (pre ++ app :: post) =
        documents d b pre ++ ("\n---\n" ++ buff ++ documents d b post) := by
      rw [documents_append, documents_cons, hc]
    refine ⟨?_, hdoc, ?_⟩
    · intro hr hio hw
      refine ⟨?_, ?_, ?_⟩
      · rw [renderTemplateToDir_prefix_ok pre (app :: post) w hr hio,
          renderTemplateToDir_cons_put post _ h1 hw]
      · simp [putUnit_readFile]
      · intro p hp
        simp [putUnit_readFile, hp]
    · intro hall
      refine ⟨fun hs => ?_, fun hm ho hw => ?_⟩
      · rw [renderTemplateToSTDOUT_ok hs _ hall w, hdoc]
      · rw [renderTemplateToFile_ok hm ho hw _ hall w, hdoc]
        simp [World.readFile, lookup_setFile_self]

/-- C2, witness: between two written units, a unit that renders to white space. -/
theorem blank_skipped_content_written_witness :
    renderTemplateToDir exampleDeps exampleOS exampleBogie
        ([mkUnit "o/a" "A"] ++ mkUnit "o/b" " \n" :: [mkUnit "o/c" "C"]) emptyWorld =
      ({ dirs := ["o"], files := [("o/c", "C"), ("o/a", "A")], stdout := "" }, none) ∧
    renderTemplateToDir exampleDeps exampleOS exampleBogie
        ([mkUnit "o/a" "A"] ++ mkUnit "o/b" " \n" :: [mkUnit "o/c" "C"]) emptyWorld =
      renderTemplateToDir exampleDeps exampleOS exampleBogie
        ([mkUnit "o/a" "A"] ++ [mkUnit "o/c" "C"]) emptyWorld :=
  ⟨by decide,
   ((blank_skipped_content_written exampleDeps exampleOS exampleBogie [mkUnit "o/a" "A"]
      [mkUnit "o/c" "C"] (mkUnit "o/b" " \n") false " \n" emptyWorld rfl).2.1
      (by decide)).2.1⟩

/-- C9: in directory mode, when unit `app` is the first whose template fails, the run
returns an error, and the state it leaves is the state left by the units before `app`:
nothing at or after `app` is written. When the calls that write the units before `app`
succeed, the error names the output path of `app`, and every path holds the content of
the last contributing unit before `app` that was put there, or else what it held at the
start; nothing is removed. -/
theorem renderTemplateToDir_first_failure (d : Deps) (os : OS) (b : Bogie)
    (pre post : List applicationOutput) (app : applicationOutput) (err : String) (w : World)
    (hpre : ∀ u ∈ pre, ∃ r, runTemplate d u.context b u.template = .ok r)
    (hk : runTemplate d app.context b app.template = .error err) :
    (∃ e, (renderTemplateToDir d os b (pre ++ app :: post) w).2 = some e) ∧
    (renderTemplateToDir d os b (pre ++ app :: post) w).1 =
      (renderTemplateToDir d os b pre w).1 ∧
    ((∀ u ∈ pre, contribution d b u ≠ none → DirWritable os u.outPath) →
      renderTemplateToDir d os b (pre ++ app :: post) w =
        (putUnits d b pre w,
          some ("Error when writing to " ++ app.outPath ++ ": " ++ err ++ "\n")) ∧
      (∀ p, (putUnits d b pre w).readFile p =
        (lastWrite d b pre p).orElse (fun _ => w.readFile p)) ∧
      (∀ p c, w.readFile p = some c → ∃ c1, (putUnits d b pre w).readFile p = some c1) ∧
      (∀ u ∈ pre, ∀ buff, contribution d b u = some buff →
        ∃ c1, (putUnits d b pre w).readFile u.outPath = some c1)) := by
  have happ := renderTemplateToDir_append d os b pre (app :: post) w
  rw [renderTemplateToDir_cons_error post _ hk] at happ
  refine ⟨?_, ?_, ?_⟩
  · rw [happ]
    by_cases h : (renderTemplateToDir d os b pre w).2 = none
    · simp [h]
    · simp only [h, ite_false]
      exact Option.ne_none_iff_exists'.1 h
  · rw [happ]
    by_cases h : (renderTemplateToDir d os b pre w).2 = none <;> simp [h]
  · intro hio
    have hread := putUnits_readFile d b pre w
    refine ⟨?_, hread, ?_, ?_⟩
    · rw [happ, renderTemplateToDir_ok pre w hpre hio]
      simp
    · intro p c hc
      rw [hread p]
      cases hl : lastWrite d b pre p with
      | none => exact ⟨c, by simp [hc]⟩
      | some c1 => exact ⟨c1, by simp⟩
    · intro u hu buff hc
      rw [hread u.outPath]
      have : lastWrite d b pre u.outPath ≠ none := by
        unfold lastWrite
        intro hnone
        rw [List.head?_eq_none_iff, List.filterMap_eq_nil_iff] at hnone
        have := hnone u (by simpa using hu)
        simp [hc] at this
      obtain ⟨c1, hc1⟩ := Option.ne_none_iff_exists'.1 this
      exact ⟨c1, by simp [hc1]⟩

/-- C9, witness: the third of four units fails to parse; the first is written, the second
is blank, the fourth is never reached. -/
theorem renderTemplateToDir_first_failure_witness :
    renderTemplateToDir exampleDeps exampleOS exampleBogie
        ([mkUnit "o/a" "A", mkUnit "o/b" " "] ++ mkUnit "o/c" "((" :: [mkUnit "o/d" "D"])
        emptyWorld =
      ({ dirs := ["o"], files := [("o/a", "A")], stdout := "" },
        some "Error when writing to o/c: Line \"((\": unclosed action\n\n") :=
  ((renderTemplateToDir_first_failure exampleDeps exampleOS exampleBogie
      [mkUnit "o/a" "A", mkUnit "o/b" " "] [mkUnit "o/d" "D"] (mkUnit "o/c" "((")
      "Line \"((\": unclosed action\n" emptyWorld
      (by
        intro u hu
        simp only [List.mem_cons, List.mem_singleton, List.not_mem_nil, or_false] at hu
        rcases hu with rfl | rfl
        · exact ⟨(true, "A"), rfl⟩
        · exact ⟨(false, " "), rfl⟩)
      rfl).2.2
      (fun _ _ _ => ⟨rfl, rfl, rfl⟩)).1.trans (by decide)


/-! ## The walk -/

theorem forEach_collect {α β : Type} (body : α → List β → Option (Except String (List β)))
    (f : α → Option (Except String (List β))) (l : List α)
    (h : ∀ a ∈ l, ∀ s, body a s = addTo s (f a)) (s : List β) :
    forEach body l s = addTo s (collect f l) := by
  induction l generalizing s with
  | nil => simp [forEach, collect, addTo]
  | cons a as ih =>
    have ih2 := ih (fun x hx => h x (by simp [hx]))
    simp only [forEach, collect, h a (by simp)]
    cases hf : f a with
    | none => simp [addTo]
    | some r =>
      cases r with
      | error e => simp [addTo]
      | ok xs =>
        simp only [addTo, ih2]
        cases hc : collect f as with
        | none => simp [addTo]
        | some r2 =>
          cases r2 with
          | error e => simp [addTo]
          | ok ys => simp [addTo, List.append_assoc]

theorem collect_congr {α β : Type} {f g : α → Option (Except String (List β))} (l : List α)
    (h : ∀ a ∈ l, f a = g a) : collect f l = collect g l := by
  induction l with
  | nil => rfl
  | cons a as ih =>
    simp only [collect, h a (by simp), ih (fun x hx => h x (by simp [hx]))]

theorem processApplication_eq_walkFrom (fs : FS) (fuel : Nat) (conf : Config)
    (acc : List applicationOutput) :
    processApplication fs fuel conf acc =
      addTo acc (walkFrom fs conf.b conf.c fuel conf.input conf.output) := by
  induction fuel generalizing conf acc with
  | zero => simp [processApplication, walkFrom, addTo]
  | succ fuel ih =>
    simp only [processApplication, walkFrom]
    cases hrd : ReadDir fs conf.input with
    | error e => simp [addTo]
    | ok entries =>
      simp only
      apply forEach_collect
      intro entry _ s
      simp only [levelRules, helperOf]
      split
      · simp [addTo]
      · split
        · rw [ih]
        · cases ReadInput fs (conf.input ++ "/" ++ entry.Name) <;> simp [addTo]

theorem length_le_maxLen {fs : FS} {p : String} {es : List DirEntry}
    (h : ReadDir fs p = .ok es) : p.length ≤ maxLen fs := by
  unfold ReadDir at h
  unfold maxLen
  generalize fs.dirs = l at h
  induction l with
  | nil => simp [List.lookup] at h
  | cons e t ih =>
    obtain ⟨k, v⟩ := e
    simp only [List.lookup_cons] at h
    by_cases hk : p = k
    · subst hk; simp
    · have hb : (p == k) = false := by simpa using hk
      simp only [hb] at h
      have := ih h
      simp only [List.map_cons, List.foldr_cons]
      exact le_trans this (le_max_right _ _)

theorem collect_isSome {α β : Type} (f : α → Option (Except String (List β))) (l : List α)
    (h : ∀ a ∈ l, ∃ r, f a = some r) : ∃ r, collect f l = some r := by
  induction l with
  | nil => exact ⟨_, rfl⟩
  | cons a as ih =>
    obtain ⟨r, hr⟩ := h a (by simp)
    obtain ⟨r2, hr2⟩ := ih (fun x hx => h x (by simp [hx]))
    simp only [collect, hr, hr2]
    cases r with
    | error e => exact ⟨_, rfl⟩
    | ok xs => cases r2 <;> exact ⟨_, rfl⟩

theorem walkFrom_isSome (fs : FS) (b : Bogie) (c : context) (fuel : Nat)
    (input output : String) (h1 : 1 ≤ fuel) (h2 : maxLen fs + 2 ≤ fuel + input.length) :
    ∃ r, walkFrom fs b c fuel input output = some r := by
  induction fuel generalizing input output with
  | zero => omega
  | succ fuel ih =>
    simp only [walkFrom]
    cases hrd : ReadDir fs input with
    | error e => exact ⟨_, rfl⟩
    | ok entries =>
      have hlen := length_le_maxLen hrd
      apply collect_isSome
      intro entry _
      split
      · exact ⟨_, rfl⟩
      · split
        · apply ih
          · omega
          · simp only [String.length_append]
            have : ("/" : String).length = 1 := rfl
            omega
        · cases ReadInput fs (input ++ "/" ++ entry.Name) <;> exact ⟨_, rfl⟩

theorem walkFrom_depthBound_isSome (fs : FS) (b : Bogie) (c : context)
    (input output : String) : ∃ r, walkFrom fs b c (depthBound fs) input output = some r :=
  walkFrom_isSome fs b c (depthBound fs) input output (by simp [depthBound])
    (by simp only [depthBound, maxLen]; omega)

theorem addTo_nil {β : Type} (r : Option (Except String (List β))) : addTo [] r = r := by
  cases r with
  | none => rfl
  | some r => cases r <;> simp [addTo]

theorem walkFrom_congr_rules (fs : FS) (b b1 : Bogie) (c : context) (h : b1.Rules = b.Rules)
    (fuel : Nat) (input output : String) :
    walkFrom fs b1 c fuel input output = walkFrom fs b c fuel input output := by
  induction fuel generalizing input output with
  | zero => rfl
  | succ fuel ih =>
    simp only [walkFrom, levelRules, h]
    cases ReadDir fs input with
    | error e => rfl
    | ok entries =>
      simp only
      apply collect_congr
      intro entry _
      split
      · rfl
      · split
        · exact ih _ _
        · rfl

theorem appUnits_congr (d : Deps) (fs : FS) (b b1 : Bogie) (c : context)
    (app : ApplicationInput) (hr : b1.Rules = b.Rules) (ho : b1.OutPath = b.OutPath) :
    appUnits d fs b1 c app = appUnits d fs b c app := by
  unfold appUnits
  rw [ho]
  cases setValueContext d app.Values c with
  | error e => rfl
  | ok c1 => exact walkFrom_congr_rules fs b b1 c1 hr _ _ _

theorem processApplications_eq (d : Deps) (fs : FS) (b : Bogie) :
    processApplications d fs b =
      match genContext d b.EnvFile with
      | .error err => some (.error err)
      | .ok c => collect (appUnits d fs b c) b.ApplicationInputs := by
  unfold processApplications
  cases genContext d b.EnvFile with
  | error e => rfl
  | ok c =>
    simp only
    rw [forEach_collect _ (appUnits d fs b c), addTo_nil]
    intro app _ s
    unfold appUnits
    cases setValueContext d app.Values c with
    | error e => simp [addTo]
    | ok c1 => simp only [processApplication_eq_walkFrom]

theorem appUnits_isSome (d : Deps) (fs : FS) (b : Bogie) (c : context) (app : ApplicationInput) :
    ∃ r, appUnits d fs b c app = some r := by
  unfold appUnits
  cases setValueContext d app.Values c with
  | error e => exact ⟨_, rfl⟩
  | ok c1 => exact walkFrom_depthBound_isSome fs b c1 _ _

theorem processApplications_isSome (d : Deps) (fs : FS) (b : Bogie) :
    ∃ r, processApplications d fs b = some r := by
  rw [processApplications_eq]
  cases genContext d b.EnvFile with
  | error e => exact ⟨_, rfl⟩
  | ok c => exact collect_isSome _ _ (fun app _ => appUnits_isSome d fs b c app)

theorem processApplications_parse (d : Deps) (fs : FS) (b : Bogie)
    (p : context → Bogie → String → Except String (context → Except String String)) :
    processApplications { d with parse := p } fs b = processApplications d fs b := rfl

theorem collect_append {α β : Type} (f : α → Option (Except String (List β)))
    (l1 l2 : List α) :
    collect f (l1 ++ l2) =
      match collect f l1 with
      | none => none
      | some (.error err) => some (.error err)
      | some (.ok xs) => addTo xs (collect f l2) := by
  induction l1 with
  | nil => simp [collect, addTo_nil]
  | cons a as ih =>
    rw [List.cons_append]
    simp only [collect]
    rw [ih]
    cases f a with
    | none => rfl
    | some r =>
      cases r with
      | error e => rfl
      | ok xs =>
        simp only
        cases collect f as with
        | none => rfl
        | some r2 =>
          cases r2 with
          | error e => rfl
          | ok ys =>
            simp only
            cases collect f l2 with
            | none => rfl
            | some r3 => cases r3 <;> simp [addTo, List.append_assoc]

theorem collect_error_of_mem {α β : Type} (f : α → Option (Except String (List β)))
    (l : List α) (a : α) (e : String) (ha : a ∈ l) (hf : f a = some (.error e))
    (hs : ∀ x ∈ l, ∃ r, f x = some r) : ∃ err, collect f l = some (.error err) := by
  induction l with
  | nil => simp at ha
  | cons x xs ih =>
    obtain ⟨r, hr⟩ := hs x (by simp)
    cases r with
    | error e1 => exact ⟨e1, by simp [collect, hr]⟩
    | ok ys =>
      rcases List.mem_cons.1 ha with rfl | ha
      · rw [hf] at hr; cases hr
      · obtain ⟨err, herr⟩ := ih ha (fun y hy => hs y (by simp [hy]))
        exact ⟨err, by simp [collect, hr, herr]⟩

theorem appUnits_root_error {d : Deps} {fs : FS} {b : Bogie} {c : context}
    {app : ApplicationInput} {e : String} (hroot : ReadDir fs app.Templates = .error e) :
    ∃ err, appUnits d fs b c app = some (.error err) ∧
      ∀ c1, setValueContext d app.Values c = .ok c1 → err = e := by
  unfold appUnits
  cases hs : setValueContext d app.Values c with
  | error e1 => exact ⟨e1, rfl, fun c1 h => by cases h⟩
  | ok c1 =>
    refine ⟨e, ?_, fun _ _ => rfl⟩
    have : depthBound fs = (maxLen fs + 1) + 1 := rfl
    simp only [this, walkFrom, hroot]

/-- C6: when the output format is none of `dir`, `file` and `stdout` and the applications
load without error, `Run` returns the error `Unknown output <value>` and leaves every file,
directory and the output stream as they were; the result is the same whatever the
template engine would do, so no template is rendered. -/
theorem Run_unknown_output (d : Deps) (os : OS) (fs : FS) (b : Bogie) (w : World)
    (apps : List applicationOutput)
    (hfmt : b.OutFormat ≠ "dir" ∧ b.OutFormat ≠ "file" ∧ b.OutFormat ≠ "stdout")
    (hload : processApplications d fs b = some (.ok apps)) :
    Run d os fs b w = some (w, some ("Unknown output " ++ b.OutFormat)) ∧
    ∀ p os1, Run { d with parse := p } os1 fs b w =
      some (w, some ("Unknown output " ++ b.OutFormat)) := by
  obtain ⟨h1, h2, h3⟩ := hfmt
  refine ⟨by simp [Run, hload, h1, h2, h3], fun p os1 => ?_⟩
  simp [Run, processApplications_parse, hload, h1, h2, h3]

/-- C6, witness: the example configuration with the output format `xml`. -/
theorem Run_unknown_output_witness :
    Run exampleDeps exampleOS exampleFS { exampleBogie with OutFormat := "xml" } emptyWorld =
      some (emptyWorld, some "Unknown output xml") :=
  (Run_unknown_output exampleDeps exampleOS exampleFS { exampleBogie with OutFormat := "xml" }
    emptyWorld _ (by decide) rfl).1

/-- C8: when the template root of some configured application cannot be read, `Run` returns
an error and leaves every file, directory and the output stream as they were, whatever the
output format and whatever the applications before it hold; when the environment, the
applications before it and its own values load without error, the error returned is the
error of reading that root. -/
theorem Run_unreadable_root (d : Deps) (os : OS) (fs : FS) (b : Bogie) (w : World)
    (app : ApplicationInput) (e : String) (happ : app ∈ b.ApplicationInputs)
    (hroot : ReadDir fs app.Templates = .error e) :
    (∀ fmt, ∃ err, Run d os fs { b with OutFormat := fmt } w = some (w, some err)) ∧
    (∀ fmt pre post c0 c1 units, b.ApplicationInputs = pre ++ app :: post →
      genContext d b.EnvFile = .ok c0 →
      processApplications d fs { b with ApplicationInputs := pre } = some (.ok units) →
      setValueContext d app.Values c0 = .ok c1 →
      Run d os fs { b with OutFormat := fmt } w = some (w, some e)) := by
  have hrun : ∀ (b1 : Bogie) (err : String),
      processApplications d fs b1 = some (.error err) → Run d os fs b1 w = some (w, some err) := by
    intro b1 err h
    simp [Run, h]
  have hfmt : ∀ fmt, processApplications d fs { b with OutFormat := fmt } =
      processApplications d fs b := by
    intro fmt
    simp only [processApplications_eq]
    cases genContext d b.EnvFile with
    | error e1 => rfl
    | ok c =>
      simp only
      apply collect_congr
      intro a _
      exact appUnits_congr d fs b _ c a rfl rfl
  refine ⟨fun fmt => ?_, ?_⟩
  · suffices h : ∃ err, processApplications d fs b = some (.error err) by
      obtain ⟨err, herr⟩ := h
      exact ⟨err, hrun _ err ((hfmt fmt).trans herr)⟩
    rw [processApplications_eq]
    cases genContext d b.EnvFile with
    | error e1 => exact ⟨e1, rfl⟩
    | ok c =>
      obtain ⟨err, herr, _⟩ := appUnits_root_error (d := d) (b := b) (c := c) hroot
      exact collect_error_of_mem _ _ app err happ herr (fun x _ => appUnits_isSome d fs b c x)
  · intro fmt pre post c0 c1 units hsplit hc hpre hval
    apply hrun
    rw [hfmt, processApplications_eq, hc, hsplit]
    rw [processApplications_eq] at hpre
    simp only [hc] at hpre
    have hpre2 : collect (appUnits d fs b c0) pre = some (.ok units) := by
      rw [← hpre]
      apply collect_congr
      intro a _
      exact (appUnits_congr d fs b { b with ApplicationInputs := pre } c0 a rfl rfl).symm
    obtain ⟨err, herr, heq⟩ := appUnits_root_error (d := d) (b := b) (c := c0) hroot
    have := heq c1 hval
    subst this
    simp only [collect_append, hpre2, collect, herr, addTo]

/-- C8, witness: the second application has no template directory; nothing is written for
the first application either. -/
theorem Run_unreadable_root_witness :
    Run exampleDeps exampleOS exampleFS
        { missingRootBogie with OutFormat := "dir" } emptyWorld =
      some (emptyWorld, some "open missing: no such file or directory") :=
  (Run_unreadable_root exampleDeps exampleOS exampleFS missingRootBogie emptyWorld
    ⟨"db", "", "missing", "db.yaml", [], false⟩ "open missing: no such file or directory"
    (by decide) rfl).2 "dir" [⟨"web", "", "t", "web.yaml", [], false⟩] [] _ _ _ rfl rfl rfl rfl

theorem collect_ok_groups {α β : Type} (f : α → Option (Except String (List β)))
    (l : List α) (units : List β) (h : collect f l = some (.ok units)) :
    ∃ groups, units = groups.flatten ∧
      List.Forall₂ (fun a g => f a = some (.ok g)) l groups := by
  induction l generalizing units with
  | nil =>
    simp only [collect, Option.some.injEq, Except.ok.injEq] at h
    exact ⟨[], by simp [← h], List.Forall₂.nil⟩
  | cons a as ih =>
    simp only [collect] at h
    cases hf : f a with
    | none => simp [hf] at h
    | some r =>
      cases r with
      | error e => simp [hf] at h
      | ok xs =>
        simp only [hf] at h
        cases hc : collect f as with
        | none => simp [hc] at h
        | some r2 =>
          cases r2 with
          | error e => simp [hc] at h
          | ok ys =>
            simp only [hc, Option.some.injEq, Except.ok.injEq] at h
            obtain ⟨groups, hg, hall⟩ := ih ys hc
            exact ⟨xs :: groups, by simp [← h, hg], List.Forall₂.cons hf hall⟩

theorem collect_ok_forall {α β : Type} (f : α → Option (Except String (List β)))
    (P : β → Prop) (l : List α)
    (h : ∀ a ∈ l, ∀ xs, f a = some (.ok xs) → ∀ x ∈ xs, P x) (units : List β)
    (hc : collect f l = some (.ok units)) : ∀ u ∈ units, P u := by
  induction l generalizing units with
  | nil =>
    simp only [collect, Option.some.injEq, Except.ok.injEq] at hc
    subst hc; simp
  | cons a as ih =>
    simp only [collect] at hc
    cases hf : f a with
    | none => simp [hf] at hc
    | some r =>
      cases r with
      | error e => simp [hf] at hc
      | ok xs =>
        simp only [hf] at hc
        cases hc2 : collect f as with
        | none => simp [hc2] at hc
        | some r2 =>
          cases r2 with
          | error e => simp [hc2] at hc
          | ok ys =>
            simp only [hc2, Option.some.injEq, Except.ok.injEq] at hc
            subst hc
            intro u hu
            rcases List.mem_append.1 hu with hu | hu
            · exact h a (by simp) xs hf u hu
            · exact ih (fun x hx => h x (by simp [hx])) ys hc2 u hu

theorem walkFrom_context (fs : FS) (b : Bogie) (c : context) (fuel : Nat)
    (input output : String) (units : List applicationOutput)
    (h : walkFrom fs b c fuel input output = some (.ok units)) :
    ∀ u ∈ units, u.context = c := by
  induction fuel generalizing input output units with
  | zero => simp [walkFrom] at h
  | succ fuel ih =>
    simp only [walkFrom] at h
    cases hrd : ReadDir fs input with
    | error e => simp [hrd] at h
    | ok entries =>
      simp only [hrd] at h
      refine collect_ok_forall _ _ entries ?_ units h
      intro entry _ xs hxs
      split at hxs
      · simp only [Option.some.injEq, Except.ok.injEq] at hxs
        subst hxs; simp
      · split at hxs
        · exact ih _ _ _ hxs
        · cases hri : ReadInput fs (input ++ "/" ++ entry.Name) with
          | error e => simp [hri] at hxs
          | ok body =>
            simp only [hri, Option.some.injEq, Except.ok.injEq] at hxs
            subst hxs; simp

theorem genContext_values {d : Deps} {envfile : String} {c0 : context}
    (h : genContext d envfile = .ok c0) : c0.Values = none := by
  unfold genContext at h
  by_cases he : envfile = ""
  · simp only [he, ne_eq, not_true_eq_false, ite_false] at h
    cases h; rfl
  · simp only [he, ne_eq, not_false_eq_true, ite_true] at h
    cases hd : d.DecryptFile envfile "yaml" with
    | error e => simp [hd] at h
    | ok text =>
      simp only [hd] at h
      cases hu : d.Unmarshal text none with
      | error e => simp [hu] at h
      | ok env =>
        simp only [hu] at h
        cases h; rfl

/-! ## Paths -/

theorem splitSlash_ne_nil (l : List Char) : splitSlash l ≠ [] := by
  induction l with
  | nil => simp [splitSlash]
  | cons c cs ih =>
    simp only [splitSlash]
    cases h : splitSlash cs with
    | nil => simp
    | cons a t => by_cases hc : c = '/' <;> simp [hc]

theorem splitSlash_cons (c : Char) (cs : List Char) :
    splitSlash (c :: cs) =
      if c = '/' then [] :: splitSlash cs
      else ((c :: (splitSlash cs).head!) :: (splitSlash cs).tail) := by
  simp only [splitSlash]
  cases h : splitSlash cs with
  | nil => exact absurd h (splitSlash_ne_nil cs)
  | cons a t => by_cases hc : c = '/' <;> simp [hc]

theorem splitSlash_append (x y : List Char) :
    splitSlash (x ++ '/' :: y) = splitSlash x ++ splitSlash y := by
  induction x with
  | nil =>
    rw [List.nil_append, splitSlash_cons]
    simp [splitSlash]
  | cons c cs ih =>
    rw [List.cons_append, splitSlash_cons, splitSlash_cons c cs, ih]
    cases h : splitSlash cs with
    | nil => exact absurd h (splitSlash_ne_nil cs)
    | cons a t => by_cases hc : c = '/' <;> simp [hc]

theorem splitSlash_no_slash (l : List Char) : ∀ comp ∈ splitSlash l, '/' ∉ comp := by
  induction l with
  | nil => simp [splitSlash]
  | cons c cs ih =>
    rw [splitSlash_cons]
    cases h : splitSlash cs with
    | nil => exact absurd h (splitSlash_ne_nil cs)
    | cons a t =>
      rw [h] at ih
      by_cases hc : c = '/'
      · simp only [hc, ite_true]
        intro comp hcomp
        rcases List.mem_cons.1 hcomp with rfl | hcomp
        · simp
        · exact ih comp hcomp
      · simp only [hc, ite_false, List.head!_cons, List.tail_cons]
        intro comp hcomp
        rcases List.mem_cons.1 hcomp with rfl | hcomp
        · have := ih a (by simp)
          intro hmem
          rcases List.mem_cons.1 hmem with h1 | h1
          · exact hc h1.symm
          · exact this h1
        · exact ih comp (by simp [hcomp])

theorem splitSlash_of_no_slash (a : List Char) (h : '/' ∉ a) : splitSlash a = [a] := by
  induction a with
  | nil => rfl
  | cons c cs ih =>
    have hc : c ≠ '/' := fun hc => h (by simp [hc])
    have hcs : '/' ∉ cs := fun hm => h (by simp [hm])
    rw [splitSlash_cons, ih hcs]
    simp [hc]

theorem splitSlash_joinSlash (L : List (List Char)) (hne : L ≠ [])
    (h : ∀ comp ∈ L, '/' ∉ comp) : splitSlash (joinSlash L) = L := by
  induction L with
  | nil => exact absurd rfl hne
  | cons a t ih =>
    cases t with
    | nil => simpa [joinSlash] using splitSlash_of_no_slash a (h a (by simp))
    | cons b rest =>
      simp only [joinSlash]
      rw [splitSlash_append, splitSlash_of_no_slash a (h a (by simp)),
        ih (by simp) (fun comp hc => h comp (by simp [hc]))]
      rfl

theorem joinSlash_append_single (L : List (List Char)) (hne : L ≠ []) (n : List Char) :
    joinSlash (L ++ [n]) = joinSlash L ++ '/' :: n := by
  induction L with
  | nil => exact absurd rfl hne
  | cons a t ih =>
    cases t with
    | nil => simp [joinSlash]
    | cons b rest =>
      have := ih (by simp)
      simp only [List.cons_append] at this ⊢
      simp only [joinSlash, this, List.append_assoc, List.cons_append]

theorem joinSlash_snoc_slash (L : List (List Char)) (r n : List Char) :
    joinSlash (L ++ [r ++ '/' :: n]) = joinSlash (L ++ [r]) ++ '/' :: n := by
  induction L with
  | nil => simp [joinSlash]
  | cons a t ih =>
    cases t with
    | nil => simp [joinSlash]
    | cons b rest =>
      simp only [List.cons_append] at ih ⊢
      simp only [joinSlash, ih, List.append_assoc, List.cons_append]

theorem cleanStep_norm (rooted : Bool) (stack : List (List Char)) (comp : List Char)
    (hs : NormStack rooted stack) (hc : '/' ∉ comp) :
    NormStack rooted (cleanStep rooted stack comp) := by
  unfold cleanStep
  by_cases h1 : comp = [] ∨ comp = ['.']
  · simp [h1, hs]
  · simp only [h1, ite_false]
    have hne : comp ≠ [] := fun h => h1 (Or.inl h)
    have hnd : comp ≠ ['.'] := fun h => h1 (Or.inr h)
    by_cases h2 : comp = ['.', '.']
    · simp only [h2, ite_true]
      cases stack with
      | nil =>
        cases rooted with
        | true => simp [NormStack]
        | false => simp [NormStack]
      | cons top rest =>
        simp only
        have hs2 := hs
        obtain ⟨hg, hrest, htop⟩ := hs
        by_cases h3 : top = ['.', '.']
        · simp only [h3, ite_true]
          obtain ⟨hr, hall⟩ := htop h3
          subst h3
          refine ⟨by simp, hs2, fun _ => ⟨hr, ?_⟩⟩
          intro c hcm
          rcases List.mem_cons.1 hcm with rfl | hcm
          · rfl
          · exact hall c hcm
        · simp only [h3, ite_false]
          exact hrest
    · simp only [h2, ite_false]
      exact ⟨⟨hne, hnd, hc⟩, hs, fun h => absurd h h2⟩

theorem foldl_cleanStep_norm (rooted : Bool) (comps : List (List Char))
    (stack : List (List Char)) (hs : NormStack rooted stack)
    (hc : ∀ comp ∈ comps, '/' ∉ comp) :
    NormStack rooted (comps.foldl (cleanStep rooted) stack) := by
  induction comps generalizing stack with
  | nil => exact hs
  | cons c cs ih =>
    simp only [List.foldl_cons]
    exact ih _ (cleanStep_norm rooted stack c hs (hc c (by simp)))
      (fun comp hm => hc comp (by simp [hm]))

theorem cleanStack_norm (l : List Char) : NormStack (isRooted l) (cleanStack l) :=
  foldl_cleanStep_norm _ _ [] trivial (splitSlash_no_slash l)

theorem NormStack_no_slash {rooted : Bool} {S : List (List Char)} (h : NormStack rooted S) :
    ∀ comp ∈ S, comp ≠ [] ∧ '/' ∉ comp := by
  induction S with
  | nil => simp
  | cons top rest ih =>
    obtain ⟨hg, hrest, _⟩ := h
    intro comp hm
    rcases List.mem_cons.1 hm with rfl | hm
    · exact ⟨hg.1, hg.2.2⟩
    · exact ih hrest comp hm

theorem foldl_cleanStep_rebuild (rooted : Bool) (S : List (List Char))
    (h : NormStack rooted S) : S.reverse.foldl (cleanStep rooted) [] = S := by
  induction S with
  | nil => rfl
  | cons top rest ih =>
    obtain ⟨⟨hne, hnd, _⟩, hrest, htop⟩ := h
    rw [List.reverse_cons, List.foldl_append, ih hrest]
    simp only [List.foldl_cons, List.foldl_nil, cleanStep, hne, hnd, or_self, ite_false]
    by_cases h2 : top = ['.', '.']
    · obtain ⟨hr, hall⟩ := htop h2
      simp only [h2, ite_true]
      cases rest with
      | nil => simp [hr]
      | cons r rs => simp [hall r (by simp)]
    · simp [h2]


theorem isRooted_append (x y : List Char) (hx : x ≠ []) : isRooted (x ++ y) = isRooted x := by
  cases x with
  | nil => exact absurd rfl hx
  | cons c cs => by_cases hc : c = '/' <;> simp [isRooted, hc]

theorem cleanStack_append (x y : List Char) (hx : x ≠ []) :
    cleanStack (x ++ '/' :: y) = (splitSlash y).foldl (cleanStep (isRooted x)) (cleanStack x) := by
  unfold cleanStack
  rw [isRooted_append x _ hx, splitSlash_append, List.foldl_append]

theorem cleanChars_ne_nil (l : List Char) : cleanChars l ≠ [] := by
  unfold cleanChars
  by_cases hr : isRooted l = true
  · simp [hr]
  · simp only [hr, Bool.false_eq_true, ite_false]
    by_cases hs : cleanStack l = []
    · simp [hs]
    · simp only [hs, ite_false]
      have hn := NormStack_no_slash (cleanStack_norm l)
      intro hj
      have h1 : (cleanStack l).reverse ≠ [] := by simpa using hs
      have h2 := splitSlash_joinSlash (cleanStack l).reverse h1
        (fun comp hc => (hn comp (by simpa using hc)).2)
      rw [hj] at h2
      simp only [splitSlash] at h2
      have h3 : ([] : List Char) ∈ (cleanStack l).reverse := by rw [← h2]; simp
      exact (hn [] (by simpa using h3)).1 rfl

theorem isRooted_joinSlash (L : List (List Char)) (hne : L ≠ [])
    (h : ∀ comp ∈ L, comp ≠ [] ∧ '/' ∉ comp) : isRooted (joinSlash L) = false := by
  cases L with
  | nil => exact absurd rfl hne
  | cons a t =>
    obtain ⟨ha, hs⟩ := h a (by simp)
    cases a with
    | nil => exact absurd rfl ha
    | cons c cs =>
      have hc : c ≠ '/' := fun hc => hs (by simp [hc])
      cases t with
      | nil =>
        simp only [joinSlash, isRooted]
        split
        · rename_i heq; cases heq; exact absurd rfl hc
        · rfl
      | cons b rest =>
        simp only [joinSlash, List.cons_append, isRooted]
        split
        · rename_i heq; cases heq; exact absurd rfl hc
        · rfl

theorem isRooted_cleanChars (l : List Char) : isRooted (cleanChars l) = isRooted l := by
  unfold cleanChars
  by_cases hr : isRooted l = true
  · rw [hr]
    simp [isRooted]
  · have hr2 : isRooted l = false := by simpa using hr
    rw [hr2]
    simp only [Bool.false_eq_true, ite_false]
    by_cases hs : cleanStack l = []
    · simp [hs, isRooted]
    · simp only [hs, ite_false]
      apply isRooted_joinSlash
      · simpa using hs
      · intro comp hc
        exact NormStack_no_slash (cleanStack_norm l) comp (by simpa using hc)

theorem cleanStack_cleanChars (l : List Char) : cleanStack (cleanChars l) = cleanStack l := by
  have hroot := isRooted_cleanChars l
  have hnorm := cleanStack_norm l
  have hn := NormStack_no_slash hnorm
  unfold cleanStack at *
  rw [hroot]
  generalize hS : (splitSlash l).foldl (cleanStep (isRooted l)) [] = S at hnorm hn
  have hcc : cleanChars l = if isRooted l then '/' :: joinSlash S.reverse
      else if S = [] then ['.'] else joinSlash S.reverse := by
    unfold cleanChars cleanStack
    rw [hS]
  rw [hcc]
  by_cases hr : isRooted l = true
  · simp only [hr, ite_true]
    rw [splitSlash_cons]
    simp only [ite_true, List.foldl_cons]
    by_cases hs : S = []
    · subst hs
      simp [joinSlash, splitSlash, cleanStep]
    · rw [splitSlash_joinSlash S.reverse (by simpa using hs)
        (fun comp hc => (hn comp (by simpa using hc)).2)]
      have := foldl_cleanStep_rebuild (isRooted l) S hnorm
      rw [hr] at this
      simpa [cleanStep] using this
  · have hr2 : isRooted l = false := by simpa using hr
    simp only [hr2, Bool.false_eq_true, ite_false]
    by_cases hs : S = []
    · subst hs
      simp [splitSlash, cleanStep]
    · simp only [hs, ite_false]
      rw [splitSlash_joinSlash S.reverse (by simpa using hs)
        (fun comp hc => (hn comp (by simpa using hc)).2)]
      have := foldl_cleanStep_rebuild (isRooted l) S hnorm
      rw [hr2] at this
      exact this

theorem cleanChars_congr {x y : List Char} (hr : isRooted x = isRooted y)
    (hs : cleanStack x = cleanStack y) : cleanChars x = cleanChars y := by
  unfold cleanChars
  rw [hr, hs]

theorem cleanChars_cleanChars_append (x y : List Char) (hx : x ≠ []) :
    cleanChars (cleanChars x ++ '/' :: y) = cleanChars (x ++ '/' :: y) := by
  apply cleanChars_congr
  · rw [isRooted_append _ _ (cleanChars_ne_nil x), isRooted_append _ _ hx, isRooted_cleanChars]
  · rw [cleanStack_append _ _ (cleanChars_ne_nil x), cleanStack_append _ _ hx,
      isRooted_cleanChars, cleanStack_cleanChars]

theorem cleanChars_append_slash (x : List Char) (hx : x ≠ []) :
    cleanChars (x ++ ['/']) = cleanChars x := by
  apply cleanChars_congr
  · rw [isRooted_append _ _ hx]
  · rw [cleanStack_append _ _ hx]
    simp [splitSlash, cleanStep]


theorem data_ne_nil_of_ne {s : String} (h : s ≠ "") : s.data ≠ [] := by
  intro hd
  apply h
  exact String.ext hd

theorem Join_empty_cons (rest : List String) : Join ("" :: rest) = Join rest := by
  simp [Join]

theorem Join_cons_ne {e : String} (he : e ≠ "") (rest : List String) :
    Join (e :: rest) = Clean ⟨joinSlash ((e :: rest).map String.data)⟩ := by
  have : (e == "") = false := by simpa using he
  simp [Join, List.dropWhile_cons, this]

theorem Clean_ne_empty (s : String) : Clean s ≠ "" := by
  intro h
  have := congrArg String.data h
  exact cleanChars_ne_nil s.data this

theorem joinSlash_cons_ne_nil {a : List Char} (ha : a ≠ []) (t : List (List Char)) :
    joinSlash (a :: t) ≠ [] := by
  cases t with
  | nil => simpa [joinSlash] using ha
  | cons b rest => simp [joinSlash, ha]

theorem Join_Join_ne {e : String} (he : e ≠ "") (rest : List String) (name : String) :
    Join [Join (e :: rest), name] = Join ((e :: rest) ++ [name]) := by
  rw [List.cons_append, Join_cons_ne he rest, Join_cons_ne (Clean_ne_empty _), Join_cons_ne he]
  have hx : joinSlash ((e :: rest).map String.data) ≠ [] :=
    joinSlash_cons_ne_nil (data_ne_nil_of_ne he) _
  have h1 : joinSlash ((e :: (rest ++ [name])).map String.data) =
      joinSlash ((e :: rest).map String.data) ++ '/' :: name.data := by
    rw [← List.cons_append, List.map_append]
    exact joinSlash_append_single _ (by simp) _
  rw [h1]
  simp only [Clean, List.map_cons, List.map_nil, joinSlash]
  congr 1
  exact cleanChars_cleanChars_append _ _ hx

theorem Join_Join (E : List String) (name : String) :
    Join [Join E, name] = Join (E ++ [name]) := by
  induction E with
  | nil => simp [Join]
  | cons e rest ih =>
    by_cases he : e = ""
    · subst he
      rw [List.cons_append, Join_empty_cons, Join_empty_cons, ih]
    · exact Join_Join_ne he rest name

theorem Join_snoc_empty (E : List String) : Join (E ++ [""]) = Join E := by
  induction E with
  | nil => simp [Join]
  | cons e rest ih =>
    by_cases he : e = ""
    · subst he
      rw [List.cons_append, Join_empty_cons, Join_empty_cons, ih]
    · rw [List.cons_append, Join_cons_ne he, Join_cons_ne he]
      have hx : joinSlash ((e :: rest).map String.data) ≠ [] :=
        joinSlash_cons_ne_nil (data_ne_nil_of_ne he) _
      have h1 : joinSlash ((e :: (rest ++ [""])).map String.data) =
          joinSlash ((e :: rest).map String.data) ++ ['/'] := by
        rw [← List.cons_append, List.map_append]
        exact joinSlash_append_single _ (by simp) _
      rw [h1]
      simp only [Clean]
      congr 1
      exact cleanChars_append_slash _ hx

theorem Join_snoc_pair (E : List String) (rel name : String) (hrel : rel ≠ "") :
    Join (E ++ [rel, name]) = Join (E ++ [rel ++ "/" ++ name]) := by
  have hdata : (rel ++ "/" ++ name).data = rel.data ++ '/' :: name.data := by
    simp [String.data_append]
  have hrn : rel ++ "/" ++ name ≠ "" := by
    intro h
    have := congrArg String.data h
    rw [hdata] at this
    simp at this
  induction E with
  | nil =>
    rw [List.nil_append, List.nil_append, Join_cons_ne hrel, Join_cons_ne hrn]
    simp [joinSlash, hdata]
  | cons e rest ih =>
    by_cases he : e = ""
    · subst he
      rw [List.cons_append, List.cons_append, Join_empty_cons, Join_empty_cons, ih]
    · rw [List.cons_append, List.cons_append, Join_cons_ne he, Join_cons_ne he]
      congr 2
      have h1 : (e :: (rest ++ [rel, name])).map String.data =
          ((e :: rest).map String.data ++ [rel.data]) ++ [name.data] := by simp
      have h2 : (e :: (rest ++ [rel ++ "/" ++ name])).map String.data =
          (e :: rest).map String.data ++ [rel.data ++ '/' :: name.data] := by simp [hdata]
      rw [h1, h2, joinSlash_append_single _ (by simp), joinSlash_snoc_slash]

theorem Join_nested (E : List String) (rel name : String) :
    Join [Join (E ++ [rel]), name] = Join (E ++ [relJoin rel name]) := by
  unfold relJoin
  by_cases hrel : rel = ""
  · subst hrel
    rw [Join_snoc_empty, Join_Join]
    simp
  · rw [Join_Join, List.append_assoc]
    simp only [hrel, ite_false]
    exact Join_snoc_pair E rel name hrel

/-! ## The walk by relative path -/

theorem walkFrom_eq_walk (fs : FS) (b : Bogie) (appName : String) (c : context) (fuel : Nat)
    (input rel : String) :
    walkFrom fs b c fuel input (Join [b.OutPath, appName, rel]) =
      walk fs b appName c fuel input rel := by
  induction fuel generalizing input rel with
  | zero => rfl
  | succ fuel ih =>
    simp only [walkFrom, walk]
    cases ReadDir fs input with
    | error e => rfl
    | ok entries =>
      simp only
      apply collect_congr
      intro entry _
      have hj : Join [Join [b.OutPath, appName, rel], entry.Name] =
          Join [b.OutPath, appName, relJoin rel entry.Name] :=
        Join_nested [b.OutPath, appName] rel entry.Name
      rw [hj]
      split
      · rfl
      · split
        · exact ih _ _
        · rfl

/-- C7: `processApplications` always returns, and what it returns is the concatenation, over
the applications in configured order, of the depth-first walk of each template root
(`walk`): entries in enumeration order, nothing for an ignored entry, the units of the
subtree for a subdirectory, and for a file at relative path `p` one unit whose output path
is `Join [OutPath, name, p]`. The first failure, in that order, is the failure of the
whole. -/
theorem processApplications_is_walk (d : Deps) (fs : FS) (b : Bogie) :
    (∃ r, processApplications d fs b = some r) ∧
    processApplications d fs b =
      (match genContext d b.EnvFile with
        | .error err => some (.error err)
        | .ok c0 =>
          collect (fun app =>
            match setValueContext d app.Values c0 with
            | .error err => some (.error err)
            | .ok c1 => walk fs b app.Name c1 (depthBound fs) app.Templates "")
            b.ApplicationInputs) ∧
    ∀ units, processApplications d fs b = some (.ok units) →
      ∃ c0 groups, genContext d b.EnvFile = .ok c0 ∧ units = groups.flatten ∧
        List.Forall₂ (fun app group =>
          ∃ c1, setValueContext d app.Values c0 = .ok c1 ∧
            walk fs b app.Name c1 (depthBound fs) app.Templates "" = some (.ok group))
          b.ApplicationInputs groups := by
  have heq : processApplications d fs b =
      (match genContext d b.EnvFile with
        | .error err => some (.error err)
        | .ok c0 =>
          collect (fun app =>
            match setValueContext d app.Values c0 with
            | .error err => some (.error err)
            | .ok c1 => walk fs b app.Name c1 (depthBound fs) app.Templates "")
            b.ApplicationInputs) := by
    rw [processApplications_eq]
    cases genContext d b.EnvFile with
    | error e => rfl
    | ok c0 =>
      simp only
      apply collect_congr
      intro app _
      unfold appUnits
      cases setValueContext d app.Values c0 with
      | error e => rfl
      | ok c1 =>
        simp only
        rw [← walkFrom_eq_walk]
        have : Join [b.OutPath, app.Name, ""] = Join [b.OutPath, app.Name] :=
          Join_snoc_empty [b.OutPath, app.Name]
        rw [this]
  refine ⟨processApplications_isSome d fs b, heq, ?_⟩
  intro units hu
  rw [heq] at hu
  cases hc : genContext d b.EnvFile with
  | error e => simp [hc] at hu
  | ok c0 =>
    simp only [hc] at hu
    obtain ⟨groups, hg, hall⟩ := collect_ok_groups _ _ _ hu
    refine ⟨c0, groups, rfl, hg, List.Forall₂.imp ?_ hall⟩
    intro app group h
    cases hs : setValueContext d app.Values c0 with
    | error e => simp [hs] at h
    | ok c1 =>
      simp only [hs] at h
      exact ⟨c1, rfl, h⟩

/-- C7, witness: the units of the example are the walk of `t` for the application `web`
followed by the walk of `u` for the application `db`. -/
theorem processApplications_is_walk_witness :
    processApplications exampleDeps exampleFS exampleBogie = some (.ok exampleUnits) ∧
    ∃ c0 groups, genContext exampleDeps exampleBogie.EnvFile = .ok c0 ∧
      exampleUnits = groups.flatten ∧
      List.Forall₂ (fun app group =>
        ∃ c1, setValueContext exampleDeps app.Values c0 = .ok c1 ∧
          walk exampleFS exampleBogie app.Name c1 (depthBound exampleFS) app.Templates "" =
            some (.ok group))
        exampleBogie.ApplicationInputs groups :=
  ⟨rfl, (processApplications_is_walk exampleDeps exampleFS exampleBogie).2.2 exampleUnits rfl⟩

/-! ## Which files a walk emits -/

theorem collect_mem_ok {α β : Type} (f : α → Option (Except String (List β)))
    (l : List α) (units : List β) (h : collect f l = some (.ok units)) (a : α) (ha : a ∈ l) :
    ∃ xs, f a = some (.ok xs) ∧ ∀ x ∈ xs, x ∈ units := by
  induction l generalizing units with
  | nil => simp at ha
  | cons b bs ih =>
    simp only [collect] at h
    cases hf : f b with
    | none => simp [hf] at h
    | some r =>
      cases r with
      | error e => simp [hf] at h
      | ok ys =>
        simp only [hf] at h
        cases hc : collect f bs with
        | none => simp [hc] at h
        | some r2 =>
          cases r2 with
          | error e => simp [hc] at h
          | ok zs =>
            simp only [hc, Option.some.injEq, Except.ok.injEq] at h
            subst h
            rcases List.mem_cons.1 ha with rfl | ha
            · exact ⟨ys, hf, fun x hx => by simp [hx]⟩
            · obtain ⟨xs, hxs, hsub⟩ := ih zs hc ha
              exact ⟨xs, hxs, fun x hx => by simp [hsub x hx]⟩

theorem Reached_head {fs : FS} {b : Bogie} {input output dir o : String}
    {entries : List DirEntry} {entry : DirEntry}
    (h : Reached fs b (input ++ "/" ++ entry.Name) (Join [output, entry.Name]) dir o)
    (hrd : ReadDir fs input = .ok entries) (hm : entry ∈ entries) (hd : entry.IsDir = true)
    (hi : (levelRules fs b input).Ignore entry.Name entry.IsDir = false) :
    Reached fs b input output dir o := by
  induction h with
  | root => exact Reached.sub Reached.root hrd hm hd hi
  | sub _ h2 h3 h4 h5 ih => exact Reached.sub ih h2 h3 h4 h5

theorem Reached_cases {fs : FS} {b : Bogie} {root out dir o : String}
    (h : Reached fs b root out dir o) :
    (dir = root ∧ o = out) ∨
    ∃ entries entry, ReadDir fs root = .ok entries ∧ entry ∈ entries ∧ entry.IsDir = true ∧
      (levelRules fs b root).Ignore entry.Name entry.IsDir = false ∧
      Reached fs b (root ++ "/" ++ entry.Name) (Join [out, entry.Name]) dir o := by
  induction h with
  | root => exact Or.inl ⟨rfl, rfl⟩
  | sub h1 h2 h3 h4 h5 ih =>
    right
    rcases ih with ⟨rfl, rfl⟩ | ⟨entries, entry, g1, g2, g3, g4, g5⟩
    · exact ⟨_, _, h2, h3, h4, h5, Reached.root⟩
    · exact ⟨entries, entry, g1, g2, g3, g4, Reached.sub g5 h2 h3 h4 h5⟩

theorem walkFrom_sound (fs : FS) (b : Bogie) (c : context) (fuel : Nat)
    (input output : String) (units : List applicationOutput)
    (h : walkFrom fs b c fuel input output = some (.ok units)) :
    ∀ u ∈ units, ∃ dir o entry body, FileAt fs b input output dir o entry ∧
      (levelRules fs b dir).Ignore entry.Name entry.IsDir = false ∧
      ReadInput fs (dir ++ "/" ++ entry.Name) = .ok body ∧
      u = { outPath := Join [o, entry.Name], template := helperOf fs dir ++ body,
            context := c } := by
  induction fuel generalizing input output units with
  | zero => simp [walkFrom] at h
  | succ fuel ih =>
    simp only [walkFrom] at h
    cases hrd : ReadDir fs input with
    | error e => simp [hrd] at h
    | ok entries =>
      simp only [hrd] at h
      refine collect_ok_forall _ _ entries ?_ units h
      intro entry hm xs hxs
      by_cases hig : (levelRules fs b input).Ignore entry.Name entry.IsDir = true
      · simp only [hig, ite_true, Option.some.injEq, Except.ok.injEq] at hxs
        subst hxs; simp
      · have hig2 : (levelRules fs b input).Ignore entry.Name entry.IsDir = false := by
          simpa using hig
        simp only [hig2, Bool.false_eq_true, ite_false] at hxs
        by_cases hd : entry.IsDir = true
        · simp only [hd, ite_true] at hxs
          intro u hu
          obtain ⟨dir, o, e2, body, hfa, h1, h2, h3⟩ := ih _ _ _ hxs u hu
          exact ⟨dir, o, e2, body,
            ⟨Reached_head hfa.reached hrd hm hd hig2, hfa.listed, hfa.isFile⟩, h1, h2, h3⟩
        · have hd2 : entry.IsDir = false := by simpa using hd
          simp only [hd2, Bool.false_eq_true, ite_false] at hxs
          cases hri : ReadInput fs (input ++ "/" ++ entry.Name) with
          | error e => simp [hri] at hxs
          | ok body =>
            simp only [hri, Option.some.injEq, Except.ok.injEq] at hxs
            subst hxs
            intro u hu
            simp only [List.mem_singleton] at hu
            exact ⟨input, output, entry, body, ⟨Reached.root, ⟨entries, hrd, hm⟩, hd2⟩,
              hig2, hri, hu⟩

theorem walkFrom_complete (fs : FS) (b : Bogie) (c : context) (fuel : Nat)
    (input output : String) (units : List applicationOutput)
    (h : walkFrom fs b c fuel input output = some (.ok units))
    (dir o : String) (entry : DirEntry) (hfa : FileAt fs b input output dir o entry)
    (hig : (levelRules fs b dir).Ignore entry.Name entry.IsDir = false) :
    ∃ body, ReadInput fs (dir ++ "/" ++ entry.Name) = .ok body ∧
      { outPath := Join [o, entry.Name], template := helperOf fs dir ++ body,
        context := c } ∈ units := by
  induction fuel generalizing input output units with
  | zero => simp [walkFrom] at h
  | succ fuel ih =>
    simp only [walkFrom] at h
    cases hrd : ReadDir fs input with
    | error e => simp [hrd] at h
    | ok entries =>
      simp only [hrd] at h
      obtain ⟨hreach, ⟨es, hes, hmem⟩, hfile⟩ := hfa
      rcases Reached_cases hreach with ⟨rfl, rfl⟩ | ⟨es1, e1, g1, g2, g3, g4, g5⟩
      · rw [hrd] at hes
        cases hes
        obtain ⟨xs, hxs, hsub⟩ := collect_mem_ok _ _ _ h entry hmem
        rw [hfile] at hig
        simp only [hfile, hig, Bool.false_eq_true, ite_false] at hxs
        cases hri : ReadInput fs (dir ++ "/" ++ entry.Name) with
        | error e => simp [hri] at hxs
        | ok body =>
          simp only [hri, Option.some.injEq, Except.ok.injEq] at hxs
          exact ⟨body, rfl, hsub _ (by simp [← hxs])⟩
      · rw [hrd] at g1
        cases g1
        obtain ⟨xs, hxs, hsub⟩ := collect_mem_ok _ _ _ h e1 g2
        rw [g3] at g4
        simp only [g3, g4, Bool.false_eq_true, ite_false, ite_true] at hxs
        obtain ⟨body, hb, hin⟩ := ih _ _ _ hxs ⟨g5, ⟨es, hes, hmem⟩, hfile⟩
        exact ⟨body, hb, hsub _ hin⟩

theorem levelRules_rules (fs : FS) (b : Bogie) (dir : String) :
    (levelRules fs b dir).rules = b.Rules.rules ++ ownRules fs dir := by
  unfold levelRules ownRules Rules.ParseFile Rules.Clone
  cases ReadInput fs (dir ++ "/.bogieignore") <;> simp

theorem processApplications_units (d : Deps) (fs : FS) (b : Bogie)
    (units : List applicationOutput) (h : processApplications d fs b = some (.ok units)) :
    ∃ c0, genContext d b.EnvFile = .ok c0 ∧
      collect (appUnits d fs b c0) b.ApplicationInputs = some (.ok units) := by
  rw [processApplications_eq] at h
  cases hc : genContext d b.EnvFile with
  | error e => simp [hc] at h
  | ok c0 => exact ⟨c0, rfl, by simpa [hc] using h⟩

theorem appUnits_ok {d : Deps} {fs : FS} {b : Bogie} {c0 : context} {app : ApplicationInput}
    {group : List applicationOutput} (h : appUnits d fs b c0 app = some (.ok group)) :
    ∃ c1, setValueContext d app.Values c0 = .ok c1 ∧
      walkFrom fs b c1 (depthBound fs) app.Templates (Join [b.OutPath, app.Name]) =
        some (.ok group) := by
  unfold appUnits at h
  cases hs : setValueContext d app.Values c0 with
  | error e => simp [hs] at h
  | ok c1 => exact ⟨c1, rfl, by simpa [hs] using h⟩


theorem fileAt_example :
    FileAt exampleFS exampleBogie "t" (Join ["out", "web"]) "t/sub" "out/web/sub"
      ⟨"c.txt", false⟩ :=
  ⟨@Reached.sub exampleFS exampleBogie "t" (Join ["out", "web"]) "t" (Join ["out", "web"])
      [⟨".bogieignore", false⟩, ⟨"_helpers.tmpl", false⟩, ⟨"a.yaml", false⟩,
        ⟨"b.txt", false⟩, ⟨"sub", true⟩]
      ⟨"sub", true⟩ Reached.root rfl (by decide) rfl (by decide),
    ⟨[⟨"c.txt", false⟩, ⟨"d.yaml", false⟩], rfl, by decide⟩, rfl⟩

theorem levelRules_eq (fs : FS) (b : Bogie) (dir : String) :
    levelRules fs b dir = { rules := b.Rules.rules ++ ownRules fs dir } := by
  have := levelRules_rules fs b dir
  cases hl : levelRules fs b dir with
  | mk rules => rw [hl] at this; simp at this; rw [this]

/-- C3 (as the code has it): at every directory the walk reads, the rule set that filters the
entries is the global rule set extended by the override file of that directory alone;
the override files of the directories above it add nothing. A run that succeeds emits a
unit for exactly the file entries of the reached levels that this rule set does not
ignore. -/
theorem ignore_rules_are_global_plus_own (d : Deps) (fs : FS) (b : Bogie) :
    (∃ r, processApplications d fs b = some r) ∧
    (∀ dir, (levelRules fs b dir).rules = b.Rules.rules ++ ownRules fs dir) ∧
    ∀ units, processApplications d fs b = some (.ok units) →
      (∀ u ∈ units, ∃ app ∈ b.ApplicationInputs, ∃ dir o entry,
        FileAt fs b app.Templates (Join [b.OutPath, app.Name]) dir o entry ∧
        Rules.Ignore { rules := b.Rules.rules ++ ownRules fs dir } entry.Name entry.IsDir =
          false ∧
        u.outPath = Join [o, entry.Name]) ∧
      (∀ app ∈ b.ApplicationInputs, ∀ dir o entry,
        FileAt fs b app.Templates (Join [b.OutPath, app.Name]) dir o entry →
        Rules.Ignore { rules := b.Rules.rules ++ ownRules fs dir } entry.Name entry.IsDir =
          false →
        ∃ u ∈ units, u.outPath = Join [o, entry.Name]) := by
  refine ⟨processApplications_isSome d fs b, levelRules_rules fs b, ?_⟩
  intro units h
  obtain ⟨c0, _, hcol⟩ := processApplications_units d fs b units h
  refine ⟨?_, ?_⟩
  · refine collect_ok_forall _ _ _ ?_ units hcol
    intro app happ group hg u hu
    obtain ⟨c1, _, hw⟩ := appUnits_ok hg
    obtain ⟨dir, o, entry, body, hfa, hig, _, hueq⟩ := walkFrom_sound fs b c1 _ _ _ _ hw u hu
    rw [levelRules_eq] at hig
    exact ⟨app, happ, dir, o, entry, hfa, hig, by rw [hueq]⟩
  · intro app happ dir o entry hfa hig
    obtain ⟨group, hg, hsub⟩ := collect_mem_ok _ _ _ hcol app happ
    obtain ⟨c1, _, hw⟩ := appUnits_ok hg
    rw [← levelRules_eq] at hig
    obtain ⟨body, _, hin⟩ := walkFrom_complete fs b c1 _ _ _ _ hw dir o entry hfa hig
    exact ⟨_, hsub _ hin, rfl⟩

/-- C3, witness: in the example tree the rule set at `t/sub` is the global one, and the
file `c.txt` of `t/sub`, which it does not ignore, has its unit. -/
theorem ignore_rules_are_global_plus_own_witness :
    processApplications exampleDeps exampleFS exampleBogie = some (.ok exampleUnits) ∧
    (levelRules exampleFS exampleBogie "t/sub").rules =
      exampleBogie.Rules.rules ++ ownRules exampleFS "t/sub" ∧
    ∃ u ∈ exampleUnits, u.outPath = Join ["out/web/sub", "c.txt"] :=
  ⟨rfl,
   (ignore_rules_are_global_plus_own exampleDeps exampleFS exampleBogie).2.1 "t/sub",
   ((ignore_rules_are_global_plus_own exampleDeps exampleFS exampleBogie).2.2 exampleUnits
    rfl).2 ⟨"web", "", "t", "web.yaml", [], false⟩ (by decide) "t/sub" "out/web/sub"
    ⟨"c.txt", false⟩ fileAt_example (by decide)⟩

/-- C3, counterexample: the override file of `t` holds `*.txt`, which excludes `b.txt` in
`t` and matches `c.txt`; `t/sub` has no override file and the global rule set is empty.
The rule set at `t/sub` is empty, not the rule set of `t`, and `t/sub/c.txt` is emitted. -/
theorem parent_rules_not_inherited :
    processApplications exampleDeps exampleFS exampleBogie = some (.ok exampleUnits) ∧
    (levelRules exampleFS exampleBogie "t").rules =
      [⟨"*.txt", false, false⟩, ⟨".bogieignore", false, false⟩,
       ⟨"_helpers.tmpl", false, false⟩] ∧
    ownRules exampleFS "t/sub" = [] ∧
    (levelRules exampleFS exampleBogie "t/sub").rules = [] ∧
    (levelRules exampleFS exampleBogie "t/sub").rules ≠
      (levelRules exampleFS exampleBogie "t").rules ++ ownRules exampleFS "t/sub" ∧
    (levelRules exampleFS exampleBogie "t").Ignore "b.txt" false = true ∧
    (levelRules exampleFS exampleBogie "t").Ignore "c.txt" false = true ∧
    (levelRules exampleFS exampleBogie "t/sub").Ignore "c.txt" false = false ∧
    (∃ u ∈ exampleUnits, u.outPath = "out/web/sub/c.txt") ∧
    (∀ u ∈ exampleUnits, u.outPath ≠ "out/web/b.txt") :=
  ⟨rfl, by decide, by decide, by decide, by decide, by decide, by decide, by decide,
    by decide, by decide⟩

/-- C4 (as the code has it): the template text of every unit is the body of the
`_helpers.tmpl` of the directory that holds the file, followed by the body of the file;
the prefix is empty when that directory has no `_helpers.tmpl`. For a file directly in
the template root this is the helper file of the root; for a file in a subdirectory it is
the helper file of that subdirectory, not of the root. -/
theorem template_is_directory_helper_then_body (d : Deps) (fs : FS) (b : Bogie) :
    (∃ r, processApplications d fs b = some r) ∧
    (∀ dir,
      (∀ text, ReadInput fs (dir ++ "/_helpers.tmpl") = .ok text → helperOf fs dir = text) ∧
      (∀ err, ReadInput fs (dir ++ "/_helpers.tmpl") = .error err → helperOf fs dir = "")) ∧
    ∀ units, processApplications d fs b = some (.ok units) →
      (∀ u ∈ units, ∃ app ∈ b.ApplicationInputs, ∃ dir o entry body,
        FileAt fs b app.Templates (Join [b.OutPath, app.Name]) dir o entry ∧
        ReadInput fs (dir ++ "/" ++ entry.Name) = .ok body ∧
        u.outPath = Join [o, entry.Name] ∧
        u.template = helperOf fs dir ++ body) ∧
      (∀ app ∈ b.ApplicationInputs, ∀ dir o entry,
        FileAt fs b app.Templates (Join [b.OutPath, app.Name]) dir o entry →
        (levelRules fs b dir).Ignore entry.Name entry.IsDir = false →
        ∃ body, ReadInput fs (dir ++ "/" ++ entry.Name) = .ok body ∧
          ∃ u ∈ units, u.outPath = Join [o, entry.Name] ∧
            u.template = helperOf fs dir ++ body) := by
  refine ⟨processApplications_isSome d fs b, ?_, ?_⟩
  · intro dir
    constructor
    · intro text ht
      simp [helperOf, ht]
    · intro err he
      simp [helperOf, he]
  · intro units h
    obtain ⟨c0, _, hcol⟩ := processApplications_units d fs b units h
    refine ⟨?_, ?_⟩
    · refine collect_ok_forall _ _ _ ?_ units hcol
      intro app happ group hg u hu
      obtain ⟨c1, _, hw⟩ := appUnits_ok hg
      obtain ⟨dir, o, entry, body, hfa, _, hri, hueq⟩ :=
        walkFrom_sound fs b c1 _ _ _ _ hw u hu
      exact ⟨app, happ, dir, o, entry, body, hfa, hri, by rw [hueq], by rw [hueq]⟩
    · intro app happ dir o entry hfa hig
      obtain ⟨group, hg, hsub⟩ := collect_mem_ok _ _ _ hcol app happ
      obtain ⟨c1, _, hw⟩ := appUnits_ok hg
      obtain ⟨body, hri, hin⟩ := walkFrom_complete fs b c1 _ _ _ _ hw dir o entry hfa hig
      exact ⟨body, hri, _, hsub _ hin, rfl, rfl⟩

/-- C4, witness: the unit of `t/sub/c.txt` is the helper of `t/sub`, which is empty,
followed by the body of the file. -/
theorem template_is_directory_helper_then_body_witness :
    processApplications exampleDeps exampleFS exampleBogie = some (.ok exampleUnits) ∧
    helperOf exampleFS "t/sub" = "" ∧
    ∃ body, ReadInput exampleFS ("t/sub" ++ "/" ++ "c.txt") = .ok body ∧
      ∃ u ∈ exampleUnits, u.outPath = Join ["out/web/sub", "c.txt"] ∧
        u.template = helperOf exampleFS "t/sub" ++ body :=
  ⟨rfl, rfl,
   ((template_is_directory_helper_then_body exampleDeps exampleFS exampleBogie).2.2
    exampleUnits rfl).2 ⟨"web", "", "t", "web.yaml", [], false⟩ (by decide) "t/sub"
    "out/web/sub" ⟨"c.txt", false⟩ fileAt_example (by decide)⟩

/-- C4, counterexample: the root `t` of the application `web` holds a `_helpers.tmpl` with
body `H;`, the file `t/sub/c.txt` has body `C`, and `t/sub` has no helper file; the unit
of `t/sub/c.txt` has the template text `C`, not `H;C`. -/
theorem root_helper_not_applied_in_subdirectory :
    processApplications exampleDeps exampleFS exampleBogie = some (.ok exampleUnits) ∧
    ReadInput exampleFS "t/_helpers.tmpl" = .ok "H;" ∧
    ReadInput exampleFS "t/sub/c.txt" = .ok "C" ∧
    (∃ u ∈ exampleUnits, u.outPath = "out/web/sub/c.txt" ∧ u.template = "C") ∧
    (∀ u ∈ exampleUnits, u.outPath = "out/web/sub/c.txt" → u.template ≠ "H;" ++ "C") ∧
    (∃ u ∈ exampleUnits, u.outPath = "out/web/a.yaml" ∧ u.template = "H;" ++ "A") :=
  ⟨rfl, rfl, rfl, by decide, by decide, by decide⟩

/-! ## The context of each application -/

theorem setValueContext_valuesOf {d : Deps} {values : String} {c0 c1 : context}
    (hv : c0.Values = none) (h : setValueContext d values c0 = .ok c1) :
    ∃ vals, valuesOf d values = .ok vals ∧ c1 = { Env := c0.Env, Values := vals } ∧
      (values = "" → vals = none) := by
  unfold setValueContext at h
  by_cases he : values = ""
  · simp only [he, ne_eq, not_true_eq_false, ite_false] at h
    cases h
    refine ⟨none, by simp [valuesOf, he], ?_, fun _ => rfl⟩
    cases c0
    simp_all
  · simp only [he, ne_eq, not_false_eq_true, ite_true] at h
    cases hd : d.DecryptFile values "yaml" with
    | error e => simp [hd] at h
    | ok text =>
      simp only [hd] at h
      rw [hv] at h
      cases hu : d.Unmarshal text none with
      | error e => simp [hu] at h
      | ok vals =>
        simp only [hu] at h
        cases h
        exact ⟨vals, by simp [valuesOf, he, hd, hu], rfl, fun hq => absurd hq he⟩

theorem setValueContextMem_fst (d : Deps) (values : String) (c : context) :
    (setValueContextMem d values c).map Prod.fst = setValueContext d values c := by
  unfold setValueContextMem setValueContext
  by_cases he : values = ""
  · simp [he, Except.map]
  · simp only [he, ne_eq, not_false_eq_true, ite_true]
    cases d.DecryptFile values "yaml" with
    | error e => rfl
    | ok text =>
      simp only
      cases d.Unmarshal text c.Values <;> rfl

theorem setValueContextMem_frame {d : Deps} {values : String} {c0 c1 base : context}
    (hv : c0.Values = none) (h : setValueContextMem d values c0 = .ok (c1, base)) :
    base = c0 ∧ setValueContext d values c0 = .ok c1 := by
  have hfst := setValueContextMem_fst d values c0
  rw [h] at hfst
  refine ⟨?_, hfst.symm⟩
  unfold setValueContextMem at h
  by_cases he : values = ""
  · simp only [he, ne_eq, not_true_eq_false, ite_false] at h
    cases h; rfl
  · simp only [he, ne_eq, not_false_eq_true, ite_true] at h
    cases hd : d.DecryptFile values "yaml" with
    | error e => simp [hd] at h
    | ok text =>
      simp only [hd] at h
      cases hu : d.Unmarshal text c0.Values with
      | error e => simp [hu] at h
      | ok vals =>
        rw [hu] at h
        simp only [hv, ite_true, Except.ok.injEq, Prod.mk.injEq] at h
        exact h.2.symm

theorem setValueContextMem_eq {d : Deps} {c0 : context} (hv : c0.Values = none)
    (values : String) :
    setValueContextMem d values c0 =
      match setValueContext d values c0 with
      | .ok c1 => .ok (c1, c0)
      | .error err => .error err := by
  unfold setValueContextMem setValueContext
  by_cases he : values = ""
  · simp [he]
  · simp only [he, ne_eq, not_false_eq_true, ite_true]
    cases d.DecryptFile values "yaml" with
    | error e => rfl
    | ok text =>
      simp only
      cases d.Unmarshal text c0.Values with
      | error e => rfl
      | ok vals => simp [hv]

theorem forEach_mem {d : Deps} {fs : FS} {b : Bogie} {c0 : context} (hv : c0.Values = none)
    (apps : List ApplicationInput) (acc : List applicationOutput) :
    forEach (fun app (st : context × List applicationOutput) =>
      match setValueContextMem d app.Values st.1 with
      | .error err => some (.error err)
      | .ok (c1, base) =>
        match processApplication fs (depthBound fs)
            { muteWarning := app.MuteWarning, input := app.Templates,
              output := Join [b.OutPath, app.Name], c := c1, b := b } st.2 with
        | some (.ok appOutputs) => some (.ok (base, appOutputs))
        | some (.error err) => some (.error err)
        | none => none) apps (c0, acc) =
    match forEach (fun app appOutputs =>
      match setValueContext d app.Values c0 with
      | .error err => some (.error err)
      | .ok c1 =>
        processApplication fs (depthBound fs)
          { muteWarning := app.MuteWarning, input := app.Templates,
            output := Join [b.OutPath, app.Name], c := c1, b := b } appOutputs) apps acc with
    | some (.ok units) => some (.ok (c0, units))
    | some (.error err) => some (.error err)
    | none => none := by
  induction apps generalizing acc with
  | nil => rfl
  | cons app apps ih =>
    simp only [forEach, setValueContextMem_eq hv]
    cases setValueContext d app.Values c0 with
    | error e => rfl
    | ok c1 =>
      simp only
      cases processApplication fs (depthBound fs)
          { muteWarning := app.MuteWarning, input := app.Templates,
            output := Join [b.OutPath, app.Name], c := c1, b := b } acc with
      | none => rfl
      | some r =>
        cases r with
        | error e => rfl
        | ok outs => exact ih outs

theorem mem_flatten_of_forall₂ {α β : Type} {R : α → List β → Prop} {l : List α}
    {groups : List (List β)} (h : List.Forall₂ R l groups) {u : β}
    (hu : u ∈ groups.flatten) : ∃ a ∈ l, ∃ g, R a g ∧ u ∈ g := by
  induction h with
  | nil => simp at hu
  | cons hr _ ih =>
    simp only [List.flatten_cons, List.mem_append] at hu
    rcases hu with hu | hu
    · exact ⟨_, by simp, _, hr, hu⟩
    · obtain ⟨a, ha, g, hg, hug⟩ := ih hu
      exact ⟨a, by simp [ha], g, hg, hug⟩

/-- C5: the units of the run are the concatenation, over the applications in configured
order, of the units `processApplication` returns for each application on its own. All units
of one application carry one context: the `Env` is that of the context `genContext`
returned, and the `Values` are those of the values source of that application alone,
decoded into the empty map, or empty when the application names no source; each unit comes
from a file under the template root of its application. Building the context of an
application leaves the base context as `genContext` returned it: the call of
`setValueContext` returns the caller's context unchanged, and the loop with its memory made
explicit (`processApplicationsMem`) returns the same units together with that base. So
every application starts from the same base, whose `Values` is empty, and the values of
one application are no part of the context of another. -/
theorem contexts_per_application (d : Deps) (fs : FS) (b : Bogie) (c0 : context)
    (hc : genContext d b.EnvFile = .ok c0) :
    c0.Values = none ∧
    (∃ r, processApplications d fs b = some r) ∧
    (∀ values c1 base, setValueContextMem d values c0 = .ok (c1, base) →
      base = c0 ∧ setValueContext d values c0 = .ok c1) ∧
    (∀ values, (setValueContextMem d values c0).map Prod.fst = setValueContext d values c0) ∧
    processApplicationsMem d fs b =
      (match processApplications d fs b with
        | some (.ok units) => some (.ok (c0, units))
        | some (.error err) => some (.error err)
        | none => none) ∧
    ∀ units, processApplications d fs b = some (.ok units) →
      (∀ u ∈ units, ∃ app ∈ b.ApplicationInputs, ∃ vals,
        valuesOf d app.Values = .ok vals ∧
        u.context = { Env := c0.Env, Values := vals } ∧
        ∃ dir o entry, FileAt fs b app.Templates (Join [b.OutPath, app.Name]) dir o entry ∧
          u.outPath = Join [o, entry.Name]) ∧
      ∃ groups, units = groups.flatten ∧
        List.Forall₂ (OwnGroup d fs b c0) b.ApplicationInputs groups ∧
        List.Forall₂ (fun app group =>
          ∃ c1, setValueContext d app.Values c0 = .ok c1 ∧
            c1.Env = c0.Env ∧
            (app.Values = "" → c1.Values = none) ∧
            (app.Values ≠ "" → ∃ text, d.DecryptFile app.Values "yaml" = .ok text ∧
              d.Unmarshal text none = .ok c1.Values) ∧
            ∀ u ∈ group, u.context = c1)
          b.ApplicationInputs groups := by
  have hv := genContext_values hc
  refine ⟨hv, processApplications_isSome d fs b,
    fun values c1 base h => setValueContextMem_frame hv h,
    fun values => setValueContextMem_fst d values c0, ?_, ?_⟩
  · unfold processApplicationsMem processApplications
    rw [hc]
    exact forEach_mem hv _ _
  intro units hp
  rw [processApplications_eq, hc] at hp
  obtain ⟨groups, hg, hall⟩ := collect_ok_groups _ _ _ hp
  have hown : List.Forall₂ (OwnGroup d fs b c0) b.ApplicationInputs groups := by
    refine List.Forall₂.imp ?_ hall
    intro app group happ
    obtain ⟨c1, hs, hw⟩ := appUnits_ok happ
    obtain ⟨vals, hvals, hc1, hempty⟩ := setValueContext_valuesOf hv hs
    refine ⟨c1, vals, hs, hvals, hc1, hempty, ?_, ?_⟩
    · rw [processApplication_eq_walkFrom, addTo_nil]
      exact hw
    · intro u hu
      obtain ⟨dir, o, entry, body, hfa, _, _, hueq⟩ :=
        walkFrom_sound fs b c1 _ _ _ _ hw u hu
      exact ⟨by rw [hueq], dir, o, entry, hfa, by rw [hueq]⟩
  refine ⟨?_, groups, hg, hown, List.Forall₂.imp ?_ hown⟩
  · intro u hu
    rw [hg] at hu
    obtain ⟨app, happ, g, ⟨c1, vals, _, hvals, hc1, _, _, hgu⟩, hug⟩ :=
      mem_flatten_of_forall₂ hown hu
    obtain ⟨hctx, hfile⟩ := hgu u hug
    exact ⟨app, happ, vals, hvals, by rw [hctx, hc1], hfile⟩
  intro app group hgr
  obtain ⟨c1, vals, hs, hvals, hc1, hempty, _, hu⟩ := hgr
  refine ⟨c1, hs, by rw [hc1], ?_, ?_, fun u hm => (hu u hm).1⟩
  · intro he
    rw [hc1]
    exact hempty he
  · intro hne
    unfold valuesOf at hvals
    simp only [hne, ite_false] at hvals
    cases hd : d.DecryptFile app.Values "yaml" with
    | error e => simp [hd] at hvals
    | ok text =>
      simp only [hd] at hvals
      exact ⟨text, rfl, by rw [hc1]; exact hvals⟩

/-- C5, witness: the units of the example are those of `web`, under the values of
`web.yaml`, followed by the one of `db`, under the values of `db.yaml`; the base context is
what it was after either call. -/
theorem contexts_per_application_witness :
    genContext exampleDeps exampleBogie.EnvFile =
      .ok { Env := some [("region", "3")], Values := none } ∧
    processApplications exampleDeps exampleFS exampleBogie = some (.ok exampleUnits) ∧
    processApplicationsMem exampleDeps exampleFS exampleBogie =
      some (.ok ({ Env := some [("region", "3")], Values := none }, exampleUnits)) ∧
    setValueContextMem exampleDeps "web.yaml" { Env := some [("region", "3")], Values := none } =
      .ok ({ Env := some [("region", "3")], Values := some [("replicas", "3")] },
           { Env := some [("region", "3")], Values := none }) ∧
    ∃ groups, exampleUnits = groups.flatten ∧
      List.Forall₂ (OwnGroup exampleDeps exampleFS exampleBogie
        { Env := some [("region", "3")], Values := none })
        exampleBogie.ApplicationInputs groups :=
  ⟨rfl, rfl, rfl, rfl,
   match ((contexts_per_application exampleDeps exampleFS exampleBogie
      { Env := some [("region", "3")], Values := none } rfl).2.2.2.2.2 exampleUnits rfl).2 with
   | ⟨groups, hg, hown, _⟩ => ⟨groups, hg, hown⟩⟩

end bogie
